import Mathlib

/-!
# Verification of the PM-Nexus identifier reconciliation & sync engine

Shallow embedding of the reference-resolution and JIRA-sync scripts of the
PM-Nexus repository (`scripts/jira-post-import-fix.py`,
`scripts/convert-all-refs-to-jira-keys.py`, `scripts/jira-sync-comprehensive.py`,
`scripts/jira-bulk-sync.py`), together with proofs and refutations of the
spec's claims about them.

Strings are modelled as `List Char`.  The reference-field rewrites in the
Python sources are all `re.sub` calls with patterns of the shape
`(\|\s*NAME\s*\|\s*)([^|]+)(\|)` (and, for the JIRA-key row,
`(\|\s*JIRA Key\s*\|)\s*[^|]*\s*(\|)`).  Since `[^|]` never crosses a `'|'`
and each pattern is anchored on literal `'|'` characters, every match of such
a pattern is aligned with the decomposition of the text at its `'|'`
characters: a match consists of a "name cell" `\s*NAME\s*` lying between two
consecutive pipes, followed by a "refs cell" (the next pipe-free segment),
followed by the closing pipe.  We therefore embed the texts as their
pipe-separated block lists (`toBlocks` / `fromBlocks`, an exact bijection)
and embed `re.sub`'s left-to-right, non-overlapping scan directly on block
lists (`goSub` / `goAfter` below; `goAfter` accounts for the closing pipe of
a match being consumed, so the immediately following block cannot start a
new match, exactly as in `re.sub`).
-/

set_option autoImplicit false

namespace PMNexus

abbrev Chars := List Char

/-! ## Python string primitives -/

/-- Python `\s` / `str.strip()` whitespace (ASCII). -/
def isPyWs (c : Char) : Bool :=
  c = ' ' || c = '\t' || c = '\n' || c = '\r' || c = '\x0b' || c = '\x0c'

/-- Trailing-whitespace trim. -/
def stripEnd (s : Chars) : Chars := (s.reverse.dropWhile isPyWs).reverse

/-- Python `str.strip()`. -/
def pyStrip (s : Chars) : Chars := stripEnd (s.dropWhile isPyWs)

/-- Python `str.lower()` (ASCII). -/
def pyLower (s : Chars) : Chars := s.map Char.toLower

def isUpperAZ (c : Char) : Bool := 'A' ≤ c && c ≤ 'Z'
def isDigit09 (c : Char) : Bool := '0' ≤ c && c ≤ '9'
def isLowerAZ (c : Char) : Bool := 'a' ≤ c && c ≤ 'z'

/-- `re.match(r'^[A-Z]+-\d+$', s)` on an already-stripped string. -/
def jiraShaped (s : Chars) : Bool :=
  decide (s.takeWhile isUpperAZ ≠ []) &&
    (match s.dropWhile isUpperAZ with
     | '-' :: ds => decide (ds ≠ []) && ds.all isDigit09
     | _ => false)

/-- `is_jira_key` from `jira-post-import-fix.py`:
`bool(re.match(r'^[A-Z]+-\d+$', ref.strip()))`. -/
def is_jira_key (s : Chars) : Bool := jiraShaped (pyStrip s)

/-- `ref.lower() in ["", "-", "none", "n/a"]`. -/
def isNoneSentinel (s : Chars) : Bool :=
  pyLower s == [] || pyLower s == ['-'] ||
    pyLower s == ['n', 'o', 'n', 'e'] || pyLower s == ['n', '/', 'a']

/-- Python `s.split(",")` (always at least one piece). -/
def splitComma : Chars → List Chars
  | [] => [[]]
  | c :: cs =>
    if c = ',' then [] :: splitComma cs
    else
      match splitComma cs with
      | [] => [[c]]
      | p :: ps => (c :: p) :: ps

/-- Python `", ".join(ts)`. -/
def joinComma : List Chars → Chars
  | [] => []
  | [t] => t
  | t :: ts => t ++ ',' :: ' ' :: joinComma ts

/-- Python `s.isdigit()` (ASCII). -/
def pyIsDigit (s : Chars) : Bool := decide (s ≠ []) && s.all isDigit09

/-- Python `s.isalnum()` (ASCII). -/
def pyIsAlnum (s : Chars) : Bool :=
  decide (s ≠ []) && s.all (fun c => isUpperAZ c || isLowerAZ c || isDigit09 c)

/-! ## The mapping table (`ReferenceMapping` in `jira-post-import-fix.py`)

Python dicts are modelled as association lists where assignment prepends,
so `List.lookup` (first hit) realizes the dict's latest-assignment-wins
semantics. -/

structure ReferenceMapping where
  epics : List (Chars × Chars)
  stories : List (Chars × Chars)
  storiesByEpic : List ((Chars × Chars) × Chars)
  tasks : List (Chars × Chars)
  taskTuples : List ((Chars × Chars) × Chars)

/-- The `context` dict handed to `convert_reference`
(`context.get("epic_name")`, `context.get("story_dir_name")`); a missing key
or an absent dict is `none`. -/
structure RefContext where
  epicName : Option Chars := none
  storyDirName : Option Chars := none

/-- The scoped per-epic story lookup section of `convert_reference` (only
entered when `context` supplies a truthy `epic_name`): first the
`S`-prefixed branch (`(epic, ref)` then `(epic, ref[1:])`), then the
bare-number branch (`(epic, ref)` then `(epic, "S"+ref)`). -/
def scopedStoryLookup (ref : Chars) (m : ReferenceMapping) (ctx : RefContext) :
    Option Chars :=
  match ctx.epicName with
  | none => none
  | some en =>
    if en ≠ [] then
      match (if ['S'].isPrefixOf ref && pyIsAlnum (ref.drop 1) then
               match m.storiesByEpic.lookup (en, ref) with
               | some v => some v
               | none => m.storiesByEpic.lookup (en, ref.drop 1)
             else none) with
      | some v => some v
      | none =>
        if pyIsDigit ref || (decide (ref ≠ []) && isDigit09 (ref.headD ' ')) then
          match m.storiesByEpic.lookup (en, ref) with
          | some v => some v
          | none => m.storiesByEpic.lookup (en, 'S' :: ref)
        else none
    else none

/-- The lookup cascade of `convert_reference` (lines 307-341): epic mapping,
`EPIC-`-stripped epic mapping, global story mapping, scoped per-epic story
mapping, task mapping, task tuple mapping — the first hit wins (each Python
branch returns immediately). -/
def convertLookup (ref : Chars) (m : ReferenceMapping) (ctx : RefContext) :
    Option Chars :=
  match m.epics.lookup ref with
  | some v => some v
  | none =>
    match (if ['E', 'P', 'I', 'C', '-'].isPrefixOf ref then
             m.epics.lookup (ref.drop 5) else none) with
    | some v => some v
    | none =>
      match m.stories.lookup ref with
      | some v => some v
      | none =>
        match scopedStoryLookup ref m ctx with
        | some v => some v
        | none =>
          match m.tasks.lookup ref with
          | some v => some v
          | none =>
            match ctx.storyDirName with
            | some sd => m.taskTuples.lookup (sd, ref)
            | none => none

/-- `convert_reference(ref, mapping, context)` from `jira-post-import-fix.py`
(lines 291-344). Returns `(converted_ref, was_converted)`: JIRA-key-shaped
and none/empty tokens pass through `(ref, False)`; a lookup hit returns
`(value, True)`; a miss falls through to `(ref, False)`. -/
def convert_reference (ref0 : Chars) (m : ReferenceMapping) (ctx : RefContext) :
    Chars × Bool :=
  let ref := pyStrip ref0
  if is_jira_key ref then (ref, false)
  else if isNoneSentinel ref then (ref, false)
  else
    match convertLookup ref m ctx with
    | some v => (v, true)
    | none => (ref, false)

/-! ## Pipe-block view of a document

`toBlocks` splits a text at every `'|'` (n pipes give n+1 blocks, all
pipe-free); `fromBlocks` re-inserts the pipes.  This is the exact
decomposition along which every match of the `re.sub` patterns above is
aligned. -/

def toBlocks : Chars → List Chars
  | [] => [[]]
  | c :: cs =>
    if c = '|' then [] :: toBlocks cs
    else
      match toBlocks cs with
      | [] => [[c]]
      | b :: bs => (c :: b) :: bs

def fromBlocks : List Chars → Chars
  | [] => []
  | [b] => b
  | b :: bs => b ++ '|' :: fromBlocks bs

/-- A block is a name cell for field `name` iff it is `\s*name\s*`,
i.e. iff stripping whitespace leaves exactly `name` (all field names used by
the scripts start and end with non-whitespace characters). -/
def nameBlk (name b : Chars) : Bool := pyStrip b == name

/- `re.sub`'s left-to-right non-overlapping scan for the pattern
`(\|\s*NAME\s*\|\s*)([^|]+)(\|)`, on the pipe-block decomposition.  The head
block of the whole text can never host a name cell (no pipe precedes it), so
the scan is run on the tail blocks; see `subFieldAcc`.

A match needs: a name cell `b`, a nonempty refs cell `c` (the `[^|]+` group;
when `c` is all-whitespace the regex backtracks and still matches, so
`c ≠ []` is the exact condition), and a following pipe (i.e. a further
block).  The closing pipe of a match is consumed, so the block right after
it cannot start a new match (`goAfter`), exactly like `re.sub` resuming at
the end of the previous match.  The replacement function also produces a
side output `σ` per match (`num_fixed` / `unresolved` bookkeeping), returned
in match order. -/
mutual

def goSub {σ : Type} (name : Chars) (repl : Chars → Chars × σ) :
    List Chars → List Chars × List σ
  | [] => ([], [])
  | [b] => ([b], [])
  | b :: c :: rest =>
    if nameBlk name b && decide (c ≠ []) && decide (rest ≠ []) then
      let r := repl c
      let t := goAfter name repl rest
      (b :: r.1 :: t.1, r.2 :: t.2)
    else
      let t := goSub name repl (c :: rest)
      (b :: t.1, t.2)

def goAfter {σ : Type} (name : Chars) (repl : Chars → Chars × σ) :
    List Chars → List Chars × List σ
  | [] => ([], [])
  | d :: rest =>
    let t := goSub name repl rest
    (d :: t.1, t.2)

end

/-- One `re.sub(rf'(\|\s*{field}\s*\|\s*)([^|]+)(\|)', repl, content)` call,
with the per-match side outputs collected in match order. -/
def subFieldAcc {σ : Type} (name : Chars) (repl : Chars → Chars × σ)
    (content : Chars) : Chars × List σ :=
  match toBlocks content with
  | [] => (content, [])
  | b0 :: bs =>
    let t := goSub name repl bs
    (fromBlocks (b0 :: t.1), t.2)

/-- Content-only version of `subFieldAcc`. -/
def subFieldC (name : Chars) (repl : Chars → Chars) (content : Chars) : Chars :=
  (subFieldAcc name (fun c => (repl c, ())) content).1

/-- The whitespace prefix of a refs cell that ends up inside group 1
(trailing `\s*` of the prefix group).  When the cell is all whitespace the
regex backtracks so that `[^|]+` keeps the last character. -/
def wsPre (c : Chars) : Chars :=
  if pyStrip c = [] then c.dropLast else c.takeWhile isPyWs

/-! ## `fix_references_in_content` (`jira-post-import-fix.py`, lines 347-393) -/

def fieldDependsOn : Chars := ['D', 'e', 'p', 'e', 'n', 'd', 's', ' ', 'O', 'n']
def fieldBlocks : Chars := ['B', 'l', 'o', 'c', 'k', 's']
def fieldRequires : Chars := ['R', 'e', 'q', 'u', 'i', 'r', 'e', 's']
def fieldUnlocks : Chars := ['U', 'n', 'l', 'o', 'c', 'k', 's']

def defaultFieldNames : List Chars :=
  [fieldDependsOn, fieldBlocks, fieldRequires, fieldUnlocks]

/-- The stripped comma-separated tokens of a refs cell:
`[r.strip() for r in refs_str.strip().split(",")]`. -/
def cellTokens (c : Chars) : List Chars := (splitComma (pyStrip c)).map pyStrip

/-- Content part of the `replace_refs` closure of `fix_references_in_content`,
acting on one matched refs cell `c`: a sentinel-valued cell is returned
verbatim (`return match.group(0)`); otherwise each token is converted and the
cell becomes group 1's trailing whitespace plus `", ".join(converted)` plus
the single space of the replacement `prefix + ", ".join(converted) + " |"`. -/
def replFix (m : ReferenceMapping) (ctx : RefContext) (c : Chars) : Chars :=
  if isNoneSentinel (pyStrip c) then c
  else
    wsPre c ++
      joinComma ((cellTokens c).map fun t => (convert_reference t m ctx).1) ++ [' ']

/-- The `replace_refs` closure of `fix_references_in_content` with its
bookkeeping: the rewritten cell plus
`(1 if any_converted else 0, unresolved entries of this match)`. -/
def replFixAcc (fieldName : Chars) (m : ReferenceMapping) (ctx : RefContext)
    (c : Chars) : Chars × (Nat × List Chars) :=
  if isNoneSentinel (pyStrip c) then (c, (0, []))
  else
    let results := (cellTokens c).map fun t => (t, convert_reference t m ctx)
    let anyConv := results.any fun p => p.2.2
    let unres := results.filterMap fun p =>
      if p.2.2 then none
      else if is_jira_key p.2.1 then none
      else if isNoneSentinel p.2.1 then none
      else some (fieldName ++ ':' :: ' ' :: p.1)
    (replFix m ctx c, ((if anyConv then 1 else 0), unres))

/-- `fix_references_in_content(content, mapping, context, field_names)`:
iterates the field names, threading the content and accumulating
`(num_fixed, unresolved)`. -/
def fixRefsWith (m : ReferenceMapping) (ctx : RefContext) (names : List Chars)
    (content : Chars) : Chars × Nat × List Chars :=
  names.foldl
    (fun st fn =>
      let t := subFieldAcc fn (replFixAcc fn m ctx) st.1
      (t.1, st.2.1 + ((t.2.map Prod.fst).sum), st.2.2 ++ (t.2.map Prod.snd).flatten))
    (content, 0, [])

/-- `fix_references_in_content` with the default field list
`["Depends On", "Blocks", "Requires", "Unlocks"]`. -/
def fix_references_in_content (content : Chars) (m : ReferenceMapping)
    (ctx : RefContext) : Chars × Nat × List Chars :=
  fixRefsWith m ctx defaultFieldNames content

/-! ## `convert-all-refs-to-jira-keys.py` -/

/-- A story document as seen by `build_story_jira_map`: the epic directory it
lives in, the short story number parsed from its header
(`^#\s+[A-Z]+-\d+-(\d+[a-z]?):`), and the JIRA key found in its
`| JIRA Key | ... |` row (`none` when absent; stories whose header or key
regex does not match contribute nothing and are not listed). -/
structure StoryScan where
  epicDir : Chars
  num : Chars
  jiraKey : Option Chars

/-- `build_story_jira_map` (lines 13-51): one global dict keyed by the bare
story number and its `S`-prefixed form — the epic directory is *not* part of
the key.  Iteration order is the directory-walk order of `docs`; later
assignments win (prepending + first-hit lookup). -/
def build_story_jira_map (docs : List StoryScan) : List (Chars × Chars) :=
  docs.foldl
    (fun mp d =>
      match d.jiraKey with
      | none => mp
      | some k => ('S' :: d.num, k) :: (d.num, k) :: mp)
    []

/-- Token conversion inside `convert_story_refs`' `replace_field`:
`if p in story_map ... elif p.startswith("S") and p[1:] in story_map ...`. -/
def convertStoryToken (sm : List (Chars × Chars)) (p : Chars) : Chars :=
  match sm.lookup p with
  | some v => v
  | none =>
    match p with
    | 'S' :: rest =>
      match sm.lookup rest with
      | some v => v
      | none => p
    | _ => p

/-- `replace_field` of `convert_story_refs`: no sentinel check; splits on
commas, strips, converts each token, rejoins with `", "` and a space before
the closing pipe. -/
def replStory (sm : List (Chars × Chars)) (c : Chars) : Chars :=
  wsPre c ++
    joinComma ((splitComma c).map fun p => convertStoryToken sm (pyStrip p)) ++ [' ']

/-- `convert_story_refs(content, story_map)` (lines 91-136): rewrite the
`Depends On` field, then the `Blocks` field. -/
def convert_story_refs (content : Chars) (sm : List (Chars × Chars)) : Chars :=
  subFieldC fieldBlocks (replStory sm) (subFieldC fieldDependsOn (replStory sm) content)

/-- Token conversion inside `convert_task_refs`: a per-story scoped lookup
keyed by `(story_dir_name, task_num)`. -/
def convertTaskToken (tm : List ((Chars × Chars) × Chars)) (storyDir p : Chars) :
    Chars :=
  match tm.lookup (storyDir, p) with
  | some v => v
  | none => p

/-- `replace_field` of `convert_task_refs`: sentinel check is
`refs.strip().lower() == "none" or refs.strip() == "-"`. -/
def replTask (tm : List ((Chars × Chars) × Chars)) (storyDir : Chars) (c : Chars) :
    Chars :=
  if pyLower (pyStrip c) == ['n', 'o', 'n', 'e'] || pyStrip c == ['-'] then c
  else
    wsPre c ++
      joinComma ((splitComma c).map fun p => convertTaskToken tm storyDir (pyStrip p))
      ++ [' ']

/-- `convert_task_refs(content, task_map, story_dir_name)` (lines 138-174):
rewrite the `Requires` field, then the `Unlocks` field. -/
def convert_task_refs (content : Chars) (tm : List ((Chars × Chars) × Chars))
    (storyDir : Chars) : Chars :=
  subFieldC fieldUnlocks (replTask tm storyDir)
    (subFieldC fieldRequires (replTask tm storyDir) content)

/-! ## `update_jira_key_in_file` (`jira-sync-comprehensive.py`, lines 526-539)

Pattern `(\|\s*JIRA Key\s*\|)\s*[^|]*\s*(\|)`: same block alignment, but the
content cell may be empty (`[^|]*`), and the replacement
`rf'\1 {jira_key} \2'` rebuilds the cell as `' ' + jira_key + ' '`. -/

def fieldJiraKey : Chars := ['J', 'I', 'R', 'A', ' ', 'K', 'e', 'y']

mutual

def goKey (key : Chars) : List Chars → List Chars
  | [] => []
  | [b] => [b]
  | b :: c :: rest =>
    if nameBlk fieldJiraKey b && decide (rest ≠ []) then
      b :: (' ' :: key ++ [' ']) :: goKeyAfter key rest
    else
      b :: goKey key (c :: rest)

def goKeyAfter (key : Chars) : List Chars → List Chars
  | [] => []
  | d :: rest => d :: goKey key rest

end

/-- The `re.sub` of `update_jira_key_in_file`. -/
def subKeyRow (key : Chars) (content : Chars) : Chars :=
  match toBlocks content with
  | [] => content
  | b0 :: bs => fromBlocks (b0 :: goKey key bs)

/-- `update_jira_key_in_file(file_path, jira_key)`: computes the substituted
content; writes (and returns `True`) iff the substitution changed the text. -/
def update_jira_key_in_file (content key : Chars) : Chars × Bool :=
  let new := subKeyRow key content
  (new, decide (new ≠ content))

/-- Whether the text contains any `| JIRA Key | ... |` row at all, i.e. any
position where the pattern of `update_jira_key_in_file` can match: a pipe, a
`JIRA Key` name cell, a pipe, a (possibly empty) cell, and a closing pipe.
Defined independently of the scanning rewrite. -/
def hasJiraKeyRow (content : Chars) : Bool :=
  match toBlocks content with
  | [] => false
  | _ :: bs => hasRowAux bs
where
  hasRowAux : List Chars → Bool
    | b :: c :: d :: rest => nameBlk fieldJiraKey b || hasRowAux (c :: d :: rest)
    | _ => false

/-! ## Utility lemmas about the string primitives -/

theorem dropWhile_append_stop {p : Char → Bool} (a : Chars) {c : Char} (b : Chars)
    (hc : p c = false) : (a ++ c :: b).dropWhile p = a.dropWhile p ++ c :: b := by
  induction a with
  | nil => simp [List.dropWhile, hc]
  | cons x xs ih =>
    by_cases hx : p x = true
    · simpa [List.dropWhile, hx] using ih
    · simp [List.dropWhile, hx]

theorem dropWhile_append_sat {p : Char → Bool} {w : Chars} (s : Chars)
    (hw : ∀ a ∈ w, p a = true) : (w ++ s).dropWhile p = s.dropWhile p := by
  induction w with
  | nil => rfl
  | cons x xs ih =>
    have hx : p x = true := hw x (by simp)
    simp only [List.cons_append, List.dropWhile_cons, hx, if_true]
    exact ih fun a ha => hw a (by simp [ha])

theorem takeWhile_append_sat {p : Char → Bool} {w : Chars} (s : Chars)
    (hw : ∀ a ∈ w, p a = true) : (w ++ s).takeWhile p = w ++ s.takeWhile p := by
  induction w with
  | nil => rfl
  | cons x xs ih =>
    have hx : p x = true := hw x (by simp)
    simp only [List.cons_append, List.takeWhile_cons, hx, if_true]
    simpa using ih fun a ha => hw a (by simp [ha])

theorem takeWhile_cons_neg {p : Char → Bool} {c : Char} (s : Chars)
    (hc : p c = false) : (c :: s).takeWhile p = [] := by
  simp [List.takeWhile_cons, hc]

theorem stripEnd_append_stop (a : Chars) {c : Char} (b : Chars)
    (hc : isPyWs c = false) : stripEnd (a ++ c :: b) = a ++ c :: stripEnd b := by
  unfold stripEnd
  rw [List.reverse_append, List.reverse_cons]
  rw [show b.reverse ++ [c] ++ a.reverse = b.reverse ++ c :: a.reverse by simp]
  rw [dropWhile_append_stop _ _ hc]
  simp

theorem stripEnd_sat {w : Chars} (hw : ∀ a ∈ w, isPyWs a = true) :
    stripEnd w = [] := by
  unfold stripEnd
  have : w.reverse.dropWhile isPyWs = [] := by
    rw [List.dropWhile_eq_nil_iff]
    intro x hx
    exact hw x (List.mem_reverse.mp hx)
  simp [this]

theorem stripEnd_append_right {s w : Chars} (hw : ∀ a ∈ w, isPyWs a = true) :
    stripEnd (s ++ w) = stripEnd s := by
  unfold stripEnd
  rw [List.reverse_append, dropWhile_append_sat _ (fun a ha => hw a (List.mem_reverse.mp ha))]

theorem pyStrip_append_right {s w : Chars} (hw : ∀ a ∈ w, isPyWs a = true) :
    pyStrip (s ++ w) = pyStrip s := by
  unfold pyStrip
  by_cases h : s.dropWhile isPyWs = []
  · have hs : ∀ a ∈ s, isPyWs a = true := List.dropWhile_eq_nil_iff.mp h
    have : (s ++ w).dropWhile isPyWs = [] := by
      rw [List.dropWhile_eq_nil_iff]
      intro x hx
      rcases List.mem_append.mp hx with h' | h'
      · exact hs x h'
      · exact hw x h'
    rw [this, h]
  · obtain ⟨c, cs, hcs⟩ := List.exists_cons_of_ne_nil h
    have hdrop : (s ++ w).dropWhile isPyWs = s.dropWhile isPyWs ++ w := by
      induction s with
      | nil => simp_all [List.dropWhile, stripEnd_sat hw, List.dropWhile_eq_nil_iff]
      | cons x xs ih =>
        by_cases hx : isPyWs x = true
        · simp only [List.cons_append, List.dropWhile_cons, hx, if_true] at *
          exact ih h hcs
        · simp [List.dropWhile_cons, hx]
    rw [hdrop, stripEnd_append_right hw]

theorem pyStrip_append_left {w s : Chars} (hw : ∀ a ∈ w, isPyWs a = true) :
    pyStrip (w ++ s) = pyStrip s := by
  unfold pyStrip
  rw [dropWhile_append_sat _ hw]

theorem pyStrip_sat {w : Chars} (hw : ∀ a ∈ w, isPyWs a = true) :
    pyStrip w = [] := by
  have := pyStrip_append_left (s := []) hw
  simpa using this

theorem stripEnd_decomp (t : Chars) :
    ∃ w, (∀ a ∈ w, isPyWs a = true) ∧ t = stripEnd t ++ w := by
  refine ⟨(t.reverse.takeWhile isPyWs).reverse, ?_, ?_⟩
  · intro a ha
    exact List.mem_takeWhile_imp (List.mem_reverse.mp ha)
  · unfold stripEnd
    conv_lhs => rw [← List.reverse_reverse t,
      ← List.takeWhile_append_dropWhile (p := isPyWs) (l := t.reverse)]
    rw [List.reverse_append]

/-- Every string decomposes as whitespace ++ its strip ++ whitespace. -/
theorem pyStrip_decomp (s : Chars) :
    ∃ w w', (∀ a ∈ w, isPyWs a = true) ∧ (∀ a ∈ w', isPyWs a = true) ∧
      s = w ++ pyStrip s ++ w' := by
  obtain ⟨w', hw', he⟩ := stripEnd_decomp (s.dropWhile isPyWs)
  refine ⟨s.takeWhile isPyWs, w', fun a ha => List.mem_takeWhile_imp ha, hw', ?_⟩
  conv_lhs => rw [← List.takeWhile_append_dropWhile (p := isPyWs) (l := s), he]
  simp [pyStrip]

theorem pyStrip_idem (s : Chars) : pyStrip (pyStrip s) = pyStrip s := by
  obtain ⟨w, w', hw, hw', hs⟩ := pyStrip_decomp s
  have h1 : pyStrip s = pyStrip (pyStrip s) := by
    conv_lhs => rw [hs]
    rw [show w ++ pyStrip s ++ w' = w ++ (pyStrip s ++ w') by simp,
      pyStrip_append_left hw, pyStrip_append_right hw']
  exact h1.symm

theorem mem_stripEnd_sub {a : Char} {s : Chars} (h : a ∈ stripEnd s) : a ∈ s := by
  unfold stripEnd at h
  have h2 := (List.dropWhile_sublist (l := s.reverse) isPyWs).subset
    (List.mem_reverse.mp h)
  exact List.mem_reverse.mp h2

theorem mem_pyStrip_sub {a : Char} {s : Chars} (h : a ∈ pyStrip s) : a ∈ s :=
  (List.dropWhile_sublist (l := s) isPyWs).subset (mem_stripEnd_sub h)

theorem mem_pyStrip_of_nonws {a : Char} {s : Chars} (ha : a ∈ s)
    (hnw : isPyWs a = false) : a ∈ pyStrip s := by
  obtain ⟨w, w', hw, hw', hs⟩ := pyStrip_decomp s
  rw [hs] at ha
  rcases List.mem_append.mp ha with h | h
  · rcases List.mem_append.mp h with h | h
    · rw [hw a h] at hnw; cases hnw
    · exact h
  · rw [hw' a h] at hnw; cases hnw

theorem stripEnd_length_le (s : Chars) : (stripEnd s).length ≤ s.length := by
  unfold stripEnd
  calc (s.reverse.dropWhile isPyWs).reverse.length
      = (s.reverse.dropWhile isPyWs).length := by simp
    _ ≤ s.reverse.length := (List.dropWhile_sublist (l := s.reverse) isPyWs).length_le
    _ = s.length := by simp

theorem pyStrip_length_le (s : Chars) : (pyStrip s).length ≤ s.length := by
  calc (pyStrip s).length ≤ (s.dropWhile isPyWs).length := stripEnd_length_le _
    _ ≤ s.length := (List.dropWhile_sublist (l := s) isPyWs).length_le

/-- A stripped nonempty string starts with a non-whitespace character. -/
theorem stripped_head_not_ws {s : Chars} {c : Char} {cs : Chars}
    (h : pyStrip s = s) (hc : s = c :: cs) : isPyWs c = false := by
  cases hcw : isPyWs c
  · rfl
  · exfalso
    have hstep : pyStrip (c :: cs) = pyStrip cs := by
      have := pyStrip_append_left (w := [c]) (s := cs)
        (by intro a ha; simp at ha; rw [ha]; exact hcw)
      simpa using this
    rw [hc, hstep] at h
    have h1 : (pyStrip cs).length ≤ cs.length := pyStrip_length_le cs
    rw [h] at h1
    simp at h1

/-- A stripped nonempty string contains a non-whitespace character. -/
theorem stripped_has_nonws {s : Chars} (h : pyStrip s = s) (hne : s ≠ []) :
    ∃ c ∈ s, isPyWs c = false := by
  obtain ⟨c, cs, rfl⟩ := List.exists_cons_of_ne_nil hne
  exact ⟨c, by simp, stripped_head_not_ws h rfl⟩

/-- If some element of `s` is non-whitespace, `stripEnd` distributes over a
left append. -/
theorem stripEnd_append_of_nonws {a b : Chars}
    (hb : ∃ c ∈ b, isPyWs c = false) : stripEnd (a ++ b) = a ++ stripEnd b := by
  obtain ⟨c, hc, hcw⟩ := hb
  obtain ⟨u, v, rfl⟩ := List.append_of_mem hc
  rw [show a ++ (u ++ c :: v) = (a ++ u) ++ c :: v by simp,
    stripEnd_append_stop _ _ hcw, stripEnd_append_stop _ _ hcw]
  simp

/-! ## Lemmas about `splitComma` and `joinComma` -/

theorem splitComma_ne_nil (s : Chars) : splitComma s ≠ [] := by
  match s with
  | [] => simp [splitComma]
  | c :: cs =>
    by_cases hc : c = ','
    · simp [splitComma, hc]
    · have := splitComma_ne_nil cs
      simp only [splitComma, hc, if_false]
      match h : splitComma cs with
      | [] => exact absurd h this
      | p :: ps => simp

theorem mem_splitComma_no_comma {p s : Chars} (h : p ∈ splitComma s) : ',' ∉ p := by
  induction s generalizing p with
  | nil =>
    simp [splitComma] at h
    simp [h]
  | cons c cs ih =>
    by_cases hc : c = ','
    · rw [splitComma, if_pos hc] at h
      rcases List.mem_cons.mp h with h' | h'
      · simp [h']
      · exact ih h'
    · rw [splitComma, if_neg hc] at h
      match hcs : splitComma cs with
      | [] => exact absurd hcs (splitComma_ne_nil cs)
      | q :: qs =>
        rw [hcs] at h
        rcases List.mem_cons.mp h with h' | h'
        · subst h'
          intro hmem
          rcases List.mem_cons.mp hmem with h'' | h''
          · exact hc h''.symm
          · exact ih (p := q) (by rw [hcs]; simp) h''
        · exact ih (by rw [hcs]; exact List.mem_cons_of_mem _ h')

theorem splitComma_no_comma {s : Chars} (h : ',' ∉ s) : splitComma s = [s] := by
  induction s with
  | nil => rfl
  | cons c cs ih =>
    have hc : ¬(c = ',') := fun he => h (by simp [he])
    rw [splitComma, if_neg hc, ih (fun hm => h (List.mem_cons_of_mem _ hm))]

theorem splitComma_singleton {s p : Chars} (h : splitComma s = [p]) : s = p := by
  induction s generalizing p with
  | nil => simp [splitComma] at h; simp [h]
  | cons c cs ih =>
    by_cases hc : c = ','
    · rw [splitComma, if_pos hc] at h
      have := splitComma_ne_nil cs
      cases hcs : splitComma cs with
      | nil => exact absurd hcs this
      | cons q qs => rw [hcs] at h; simp at h
    · rw [splitComma, if_neg hc] at h
      cases hcs : splitComma cs with
      | nil => exact absurd hcs (splitComma_ne_nil cs)
      | cons q qs =>
        rw [hcs] at h
        have h1 : c :: q = p ∧ qs = [] := by
          constructor
          · exact (List.cons_eq_cons.mp h).1
          · have := (List.cons_eq_cons.mp h).2
            simpa using this
        have h2 : cs = q := ih (by rw [hcs, h1.2])
        rw [h2, h1.1]

theorem splitComma_append_comma (a b : Chars) :
    splitComma (a ++ ',' :: b) = splitComma a ++ splitComma b := by
  induction a with
  | nil => simp [splitComma]
  | cons c cs ih =>
    by_cases hc : c = ','
    · simp only [List.cons_append, splitComma, if_pos hc, List.append_eq, ih]
    · simp only [List.cons_append, splitComma, if_neg hc, List.append_eq, ih]
      cases hcs : splitComma cs with
      | nil => exact absurd hcs (splitComma_ne_nil cs)
      | cons q qs => simp

theorem dropWhile_of_stripped {u : Chars} (h : pyStrip u = u) :
    u.dropWhile isPyWs = u := by
  have hsub := List.dropWhile_sublist (l := u) isPyWs
  have h1 : (pyStrip u).length ≤ (u.dropWhile isPyWs).length := stripEnd_length_le _
  rw [h] at h1
  exact hsub.eq_of_length (le_antisymm hsub.length_le h1)

theorem stripEnd_of_stripped {u : Chars} (h : pyStrip u = u) : stripEnd u = u := by
  have := dropWhile_of_stripped h
  unfold pyStrip at h
  rw [this] at h
  exact h

theorem comma_not_ws : isPyWs ',' = false := by decide

/-- Left whitespace does not affect the stripped comma-pieces of a string. -/
theorem mapStrip_split_ws_left {w s : Chars} (hw : ∀ a ∈ w, isPyWs a = true) :
    (splitComma (w ++ s)).map pyStrip = (splitComma s).map pyStrip := by
  induction w with
  | nil => rfl
  | cons c w' ih =>
    have hcw : isPyWs c = true := hw c (by simp)
    have hc : ¬(c = ',') := by
      intro he; rw [he] at hcw; rw [comma_not_ws] at hcw; cases hcw
    have ih' := ih fun a ha => hw a (by simp [ha])
    rw [List.cons_append, splitComma, if_neg hc]
    cases hsp : splitComma (w' ++ s) with
    | nil => exact absurd hsp (splitComma_ne_nil _)
    | cons p ps =>
      rw [hsp] at ih'
      have hhead : pyStrip (c :: p) = pyStrip p := by
        have := pyStrip_append_left (w := [c]) (s := p)
          (by intro a ha; simp at ha; rw [ha]; exact hcw)
        simpa using this
      simp only [List.map_cons, hhead]
      simp only [List.map_cons] at ih'
      rw [ih']

theorem splitComma_snoc {x : Chars} {a : Char} (ha : ¬(a = ',')) :
    splitComma (x ++ [a]) =
      (splitComma x).dropLast ++ [(splitComma x).getLastD [] ++ [a]] := by
  induction x with
  | nil => simp [splitComma, ha]
  | cons c cs ih =>
    by_cases hc : c = ','
    · rw [List.cons_append, splitComma, if_pos hc, ih]
      conv_rhs => rw [splitComma, if_pos hc]
      cases hcs : splitComma cs with
      | nil => exact absurd hcs (splitComma_ne_nil cs)
      | cons q qs => simp
    · rw [List.cons_append, splitComma, if_neg hc, ih]
      conv_rhs => rw [splitComma, if_neg hc]
      cases hcs : splitComma cs with
      | nil => exact absurd hcs (splitComma_ne_nil cs)
      | cons q qs =>
        cases qs with
        | nil => simp
        | cons r rs => simp

/-- Right whitespace does not affect the stripped comma-pieces of a string. -/
theorem mapStrip_split_ws_right {s w : Chars} (hw : ∀ a ∈ w, isPyWs a = true) :
    (splitComma (s ++ w)).map pyStrip = (splitComma s).map pyStrip := by
  induction w generalizing s with
  | nil => simp
  | cons a w' ih =>
    have haw : isPyWs a = true := hw a (by simp)
    have ha : ¬(a = ',') := by
      intro he; rw [he] at haw; rw [comma_not_ws] at haw; cases haw
    have h1 : (splitComma (s ++ [a])).map pyStrip = (splitComma s).map pyStrip := by
      rw [splitComma_snoc ha]
      cases hsp : splitComma s with
      | nil => exact absurd hsp (splitComma_ne_nil _)
      | cons p ps =>
        have hlast : pyStrip ((p :: ps).getLastD [] ++ [a]) =
            pyStrip ((p :: ps).getLastD []) :=
          pyStrip_append_right (by intro b hb; simp at hb; rw [hb]; exact haw)
        have hrecomb : (p :: ps).dropLast ++ [(p :: ps).getLastD []] = p :: ps := by
          rw [List.getLastD_eq_getLast?, List.getLast?_eq_getLast _ (by simp)]
          simp [List.dropLast_append_getLast]
        conv_rhs => rw [← hrecomb]
        simp only [List.map_append, List.map_cons, List.map_nil, hlast]
    calc (splitComma (s ++ a :: w')).map pyStrip
        = (splitComma ((s ++ [a]) ++ w')).map pyStrip := by simp
      _ = (splitComma (s ++ [a])).map pyStrip := ih fun b hb => hw b (by simp [hb])
      _ = (splitComma s).map pyStrip := h1

/-- Outer stripping does not affect the stripped comma-pieces. -/
theorem mapStrip_split_pyStrip (s : Chars) :
    (splitComma (pyStrip s)).map pyStrip = (splitComma s).map pyStrip := by
  obtain ⟨w, w', hw, hw', hs⟩ := pyStrip_decomp s
  conv_rhs => rw [hs]
  rw [show w ++ pyStrip s ++ w' = w ++ (pyStrip s ++ w') by simp,
    mapStrip_split_ws_left hw, mapStrip_split_ws_right hw']

/-- Stripping a string of the form `t ++ "," ++ rest` (with `t` itself
stripped) keeps `t` and the comma and strips only the tail's end. -/
theorem pyStrip_stripped_comma {t : Chars} (r : Chars) (ht : pyStrip t = t) :
    pyStrip (t ++ ',' :: r) = t ++ ',' :: stripEnd r := by
  unfold pyStrip
  rw [dropWhile_append_stop _ _ comma_not_ws, dropWhile_of_stripped ht,
    stripEnd_append_stop _ _ comma_not_ws]

/-- Splitting the stripped rejoin of a list of stripped, comma-free tokens
recovers exactly the tokens. -/
theorem splitStrip_join_aux :
    ∀ {ts : List Chars}, ts ≠ [] → (∀ o ∈ ts, pyStrip o = o) →
      (∀ o ∈ ts, ',' ∉ o) →
      (splitComma (stripEnd (' ' :: joinComma ts))).map pyStrip = ts
  | [], h, _, _ => absurd rfl h
  | [u], _, hst, hcf => by
    have hu : pyStrip u = u := hst u (by simp)
    by_cases hue : u = []
    · subst hue
      have h1 : stripEnd [' '] = [] := stripEnd_sat (by intro a ha; simp at ha; simp [ha, isPyWs])
      simp [joinComma, h1, splitComma, pyStrip, stripEnd]
    · have h1 : stripEnd (' ' :: u) = ' ' :: u := by
        have h2 := stripEnd_append_of_nonws (a := [' ']) (b := u)
          (stripped_has_nonws hu hue)
        simpa [stripEnd_of_stripped hu] using h2
      have h3 : ',' ∉ (' ' :: u) := by
        intro hm
        rcases List.mem_cons.mp hm with h' | h'
        · cases h'
        · exact hcf u (by simp) h'
      have h4 : pyStrip (' ' :: u) = pyStrip u := by
        have := pyStrip_append_left (w := [' ']) (s := u)
          (by intro a ha; simp at ha; simp [ha, isPyWs])
        simpa using this
      simp [joinComma, h1, splitComma_no_comma h3, h4, hu]
  | u :: v :: ts, _, hst, hcf => by
    have hu : pyStrip u = u := hst u (by simp)
    have h1 : (' ' :: joinComma (u :: v :: ts)) =
        (' ' :: u) ++ ',' :: ' ' :: joinComma (v :: ts) := by
      simp [joinComma]
    rw [h1, stripEnd_append_stop _ _ comma_not_ws, splitComma_append_comma]
    have h3 : ',' ∉ (' ' :: u) := by
      intro hm
      rcases List.mem_cons.mp hm with h' | h'
      · cases h'
      · exact hcf u (by simp) h'
    rw [splitComma_no_comma h3]
    have h4 : pyStrip (' ' :: u) = u := by
      have := pyStrip_append_left (w := [' ']) (s := u)
        (by intro a ha; simp at ha; simp [ha, isPyWs])
      simpa [hu] using this
    have ih := @splitStrip_join_aux (v :: ts) (by simp)
      (fun o ho => hst o (by simp [ho]))
      (fun o ho => hcf o (by simp [ho]))
    simp only [List.map_append, List.map_cons, List.map_nil, h4, ih]
    rfl

/-- Re-splitting the rewritten cell text recovers the converted token list:
the core round-trip behind idempotence. -/
theorem splitStrip_join {conv : List Chars} (hne : conv ≠ [])
    (hst : ∀ o ∈ conv, pyStrip o = o) (hcf : ∀ o ∈ conv, ',' ∉ o) :
    (splitComma (pyStrip (joinComma conv))).map pyStrip = conv := by
  match conv with
  | [] => exact absurd rfl hne
  | [t] =>
    have h1 : pyStrip t = t := hst t (by simp)
    simp only [joinComma, h1]
    rw [splitComma_no_comma (hcf t (by simp))]
    simp [h1]
  | t :: u :: ts =>
    have h1 : pyStrip t = t := hst t (by simp)
    have h2 : joinComma (t :: u :: ts) = t ++ ',' :: ' ' :: joinComma (u :: ts) := rfl
    rw [h2, pyStrip_stripped_comma _ h1, splitComma_append_comma,
      splitComma_no_comma (hcf t (by simp))]
    have ih := @splitStrip_join_aux (u :: ts) (by simp)
      (fun o ho => hst o (by simp [ho]))
      (fun o ho => hcf o (by simp [ho]))
    simp only [List.map_append, List.map_cons, List.map_nil, h1, ih]
    rfl

/-- A stripped, nonempty, comma-free token of a token list survives the
join-then-split round trip even when the other tokens are arbitrary. -/
theorem mem_mapStrip_split_join {t : Chars} :
    ∀ {conv : List Chars}, t ∈ conv → pyStrip t = t → t ≠ [] → ',' ∉ t →
      t ∈ (splitComma (joinComma conv)).map pyStrip
  | [], hmem, _, _, _ => absurd hmem (by simp)
  | [v], hmem, hst, hne, hcf => by
    have : t = v := by simpa using hmem
    subst this
    simp only [joinComma]
    rw [splitComma_no_comma hcf]
    simp [hst]
  | v :: w :: conv', hmem, hst, hne, hcf => by
    have h2 : joinComma (v :: w :: conv') = v ++ ',' :: ' ' :: joinComma (w :: conv') :=
      rfl
    rw [h2, splitComma_append_comma, List.map_append]
    rcases List.mem_cons.mp hmem with h' | h'
    · subst h'
      rw [splitComma_no_comma hcf]
      simp [hst]
    · refine List.mem_append_right _ ?_
      have hmono := mapStrip_split_ws_left (w := [' ']) (s := joinComma (w :: conv'))
        (by intro a ha; simp at ha; simp [ha, isPyWs])
      rw [show (' ' :: joinComma (w :: conv')) = [' '] ++ joinComma (w :: conv') from rfl,
        hmono]
      exact mem_mapStrip_split_join h' hst hne hcf

/-! ## Character classes, JIRA-key shapes, sentinels -/

theorem ws_cases {c : Char} (h : isPyWs c = true) :
    c = ' ' ∨ c = '\t' ∨ c = '\n' ∨ c = '\r' ∨ c = '\x0b' ∨ c = '\x0c' := by
  unfold isPyWs at h
  simp only [Bool.or_eq_true, decide_eq_true_eq] at h
  tauto

theorem upper_not_ws {c : Char} (h : isUpperAZ c = true) : isPyWs c = false := by
  cases hw : isPyWs c
  · rfl
  · exfalso
    unfold isUpperAZ at h
    simp only [Bool.and_eq_true, decide_eq_true_eq] at h
    rcases ws_cases hw with h' | h' | h' | h' | h' | h' <;>
      (subst h'; exact absurd h.1 (by decide))

theorem digit_not_ws {c : Char} (h : isDigit09 c = true) : isPyWs c = false := by
  cases hw : isPyWs c
  · rfl
  · exfalso
    unfold isDigit09 at h
    simp only [Bool.and_eq_true, decide_eq_true_eq] at h
    rcases ws_cases hw with h' | h' | h' | h' | h' | h' <;>
      (subst h'; exact absurd h.1 (by decide))

theorem upper_ne {c : Char} (h : isUpperAZ c = true) {d : Char}
    (hd : isUpperAZ d = false) : c ≠ d := by
  intro he; subst he; rw [h] at hd; cases hd

theorem digit_ne {c : Char} (h : isDigit09 c = true) {d : Char}
    (hd : isDigit09 d = false) : c ≠ d := by
  intro he; subst he; rw [h] at hd; cases hd

theorem jiraShaped_chars {v : Chars} (h : jiraShaped v = true) :
    ∀ c ∈ v, isUpperAZ c = true ∨ c = '-' ∨ isDigit09 c = true := by
  intro c hc
  unfold jiraShaped at h
  rw [Bool.and_eq_true] at h
  obtain ⟨h1, h2⟩ := h
  rw [← List.takeWhile_append_dropWhile (p := isUpperAZ) (l := v)] at hc
  rcases List.mem_append.mp hc with hm | hm
  · exact Or.inl (List.mem_takeWhile_imp hm)
  · revert h2
    cases hw : v.dropWhile isUpperAZ with
    | nil => rw [hw] at hm; cases hm
    | cons d ds =>
      rw [hw] at hm
      intro h2
      by_cases hd : d = '-'
      · subst hd
        rcases List.mem_cons.mp hm with h' | h'
        · exact Or.inr (Or.inl h')
        · simp only [Bool.and_eq_true] at h2
          exact Or.inr (Or.inr (List.all_eq_true.mp h2.2 c h'))
      · exfalso
        cases d <;> simp_all [jiraShaped]

theorem no_ws_of_jiraShaped {v : Chars} (h : jiraShaped v = true) :
    ∀ c ∈ v, isPyWs c = false := by
  intro c hc
  rcases jiraShaped_chars h c hc with h' | h' | h'
  · exact upper_not_ws h'
  · subst h'; decide
  · exact digit_not_ws h'

theorem no_comma_of_jiraShaped {v : Chars} (h : jiraShaped v = true) : ',' ∉ v := by
  intro hc
  rcases jiraShaped_chars h ',' hc with h' | h' | h' <;> revert h' <;> decide

theorem no_pipe_of_jiraShaped {v : Chars} (h : jiraShaped v = true) : '|' ∉ v := by
  intro hc
  rcases jiraShaped_chars h '|' hc with h' | h' | h' <;> revert h' <;> decide

theorem pyStrip_of_no_ws {v : Chars} (h : ∀ c ∈ v, isPyWs c = false) :
    pyStrip v = v := by
  obtain ⟨w, w', hw, hw', hs⟩ := pyStrip_decomp v
  have hwnil : w = [] := by
    cases w with
    | nil => rfl
    | cons a as =>
      exfalso
      have h1 : a ∈ v := by rw [hs]; simp
      have h2 := hw a (by simp)
      rw [h a h1] at h2
      cases h2
  have hwnil' : w' = [] := by
    cases w' with
    | nil => rfl
    | cons a as =>
      exfalso
      have h1 : a ∈ v := by rw [hs]; simp
      have h2 := hw' a (by simp)
      rw [h a h1] at h2
      cases h2
  rw [hwnil, hwnil'] at hs
  simpa using hs.symm

theorem strip_of_jiraShaped {v : Chars} (h : jiraShaped v = true) : pyStrip v = v :=
  pyStrip_of_no_ws (no_ws_of_jiraShaped h)

theorem toLower_comma : Char.toLower ',' = ',' := by decide

theorem no_comma_of_sentinel {s : Chars} (h : isNoneSentinel s = true) : ',' ∉ s := by
  intro hc
  have h1 : (',' : Char) ∈ pyLower s := by
    unfold pyLower
    have := List.mem_map_of_mem Char.toLower hc
    rwa [toLower_comma] at this
  unfold isNoneSentinel at h
  simp only [Bool.or_eq_true, beq_iff_eq] at h
  rcases h with ((h | h) | h) | h <;> (rw [h] at h1; revert h1; decide)

theorem sentinel_nil : isNoneSentinel [] = true := by decide

theorem splitComma_of_sentinel {s : Chars} (h : isNoneSentinel s = true) :
    splitComma s = [s] := splitComma_no_comma (no_comma_of_sentinel h)

/-! ## Lemmas about `convert_reference` -/

theorem lookup_mem {α β : Type} [BEq α] [LawfulBEq α] {l : List (α × β)} {k : α}
    {v : β} (h : List.lookup k l = some v) : (k, v) ∈ l := by
  induction l with
  | nil => cases h
  | cons p ps ih =>
    rw [List.lookup] at h
    split at h
    · next heq =>
        have h2 : p.2 = v := by injection h
        have h3 : k = p.1 := eq_of_beq heq
        exact List.mem_cons.mpr (Or.inl (by rw [h3, ← h2]))
    · exact List.mem_cons_of_mem _ (ih h)

theorem convert_reference_strip (t : Chars) (m : ReferenceMapping)
    (ctx : RefContext) :
    convert_reference (pyStrip t) m ctx = convert_reference t m ctx := by
  unfold convert_reference
  rw [pyStrip_idem]

theorem convert_fst_of_not_conv {t : Chars} {m : ReferenceMapping}
    {ctx : RefContext} (h : (convert_reference t m ctx).2 = false) :
    (convert_reference t m ctx).1 = pyStrip t := by
  unfold convert_reference at h ⊢
  by_cases h1 : is_jira_key (pyStrip t) = true
  · simp [h1]
  · by_cases h2 : isNoneSentinel (pyStrip t) = true
    · simp [h1, h2]
    · simp only [h1, h2, Bool.false_eq_true, if_false] at h ⊢
      cases hl : convertLookup (pyStrip t) m ctx
      · simp [hl]
      · rw [hl] at h; simp at h

theorem convert_jira_passthrough {t : Chars} (m : ReferenceMapping)
    (ctx : RefContext) (h : jiraShaped (pyStrip t) = true) :
    convert_reference t m ctx = (pyStrip t, false) := by
  unfold convert_reference
  have h1 : is_jira_key (pyStrip t) = true := by
    unfold is_jira_key
    rw [pyStrip_idem]
    exact h
  simp [h1]

theorem convert_sentinel_passthrough {t : Chars} (m : ReferenceMapping)
    (ctx : RefContext) (hj : is_jira_key (pyStrip t) = false)
    (h : isNoneSentinel (pyStrip t) = true) :
    convert_reference t m ctx = (pyStrip t, false) := by
  unfold convert_reference
  simp [hj, h]

/-- All values of a mapping table are JIRA-key-shaped or empty — true of
every table `build_complete_mapping` produces, since every stored value is
either a `([A-Z]+-\d+)` regex capture or the `""` returned by
`extract_jira_key` on a key-less story file. -/
def GoodValues (m : ReferenceMapping) : Prop :=
  (∀ p ∈ m.epics, jiraShaped p.2 = true ∨ p.2 = []) ∧
  (∀ p ∈ m.stories, jiraShaped p.2 = true ∨ p.2 = []) ∧
  (∀ p ∈ m.storiesByEpic, jiraShaped p.2 = true ∨ p.2 = []) ∧
  (∀ p ∈ m.tasks, jiraShaped p.2 = true ∨ p.2 = []) ∧
  (∀ p ∈ m.taskTuples, jiraShaped p.2 = true ∨ p.2 = [])

theorem scopedStoryLookup_provenance {ref v : Chars} {m : ReferenceMapping}
    {ctx : RefContext} (h : scopedStoryLookup ref m ctx = some v) :
    ∃ k, m.storiesByEpic.lookup k = some v := by
  unfold scopedStoryLookup at h
  rcases hctx : ctx.epicName with _ | en
  · simp [hctx] at h
  · simp only [hctx] at h
    by_cases hen : en ≠ []
    rotate_left
    · rw [if_neg hen] at h
      cases h
    rw [if_pos hen] at h
    by_cases h1 : (['S'].isPrefixOf ref && pyIsAlnum (ref.drop 1)) = true
    · rw [if_pos h1] at h
      cases hL1 : m.storiesByEpic.lookup (en, ref) with
      | some w =>
        simp only [hL1] at h
        exact ⟨(en, ref), by rw [hL1, h]⟩
      | none =>
        simp only [hL1] at h
        cases hL2 : m.storiesByEpic.lookup (en, ref.drop 1) with
        | some w =>
          simp only [hL2] at h
          exact ⟨(en, ref.drop 1), by rw [hL2, h]⟩
        | none =>
          simp only [hL2] at h
          by_cases h2 :
              (pyIsDigit ref || (decide (ref ≠ []) && isDigit09 (ref.headD ' '))) = true
          · rw [if_pos h2] at h
            exact ⟨(en, 'S' :: ref), h⟩
          · rw [if_neg h2] at h
            cases h
    · rw [if_neg h1] at h
      simp only [] at h
      by_cases h2 :
          (pyIsDigit ref || (decide (ref ≠ []) && isDigit09 (ref.headD ' '))) = true
      · rw [if_pos h2] at h
        cases hL3 : m.storiesByEpic.lookup (en, ref) with
        | some w =>
          simp only [hL3] at h
          exact ⟨(en, ref), by rw [hL3, h]⟩
        | none =>
          simp only [hL3] at h
          exact ⟨(en, 'S' :: ref), h⟩
      · rw [if_neg h2] at h
        cases h

theorem convertLookup_provenance {ref v : Chars} {m : ReferenceMapping}
    {ctx : RefContext} (h : convertLookup ref m ctx = some v) :
    (∃ k, m.epics.lookup k = some v) ∨ (∃ k, m.stories.lookup k = some v) ∨
    (∃ k, m.storiesByEpic.lookup k = some v) ∨ (∃ k, m.tasks.lookup k = some v) ∨
    (∃ k, m.taskTuples.lookup k = some v) := by
  unfold convertLookup at h
  cases hL1 : m.epics.lookup ref with
  | some w =>
    simp only [hL1] at h
    exact Or.inl ⟨ref, by rw [hL1, h]⟩
  | none =>
    simp only [hL1] at h
    have hnext : (match m.stories.lookup ref with
        | some v => some v
        | none =>
          match scopedStoryLookup ref m ctx with
          | some v => some v
          | none =>
            match m.tasks.lookup ref with
            | some v => some v
            | none =>
              match ctx.storyDirName with
              | some sd => m.taskTuples.lookup (sd, ref)
              | none => none) = some v ∨ ∃ k, m.epics.lookup k = some v := by
      by_cases h1 : (['E', 'P', 'I', 'C', '-'].isPrefixOf ref) = true
      · rw [if_pos h1] at h
        cases hL2 : m.epics.lookup (ref.drop 5) with
        | some w =>
          simp only [hL2] at h
          exact Or.inr ⟨ref.drop 5, by rw [hL2, h]⟩
        | none =>
          simp only [hL2] at h
          exact Or.inl h
      · rw [if_neg h1] at h
        simp only [] at h
        exact Or.inl h
    rcases hnext with h | hep
    · cases hL3 : m.stories.lookup ref with
      | some w =>
        simp only [hL3] at h
        exact Or.inr (Or.inl ⟨ref, by rw [hL3, h]⟩)
      | none =>
        simp only [hL3] at h
        cases hL4 : scopedStoryLookup ref m ctx with
        | some w =>
          simp only [hL4] at h
          exact Or.inr (Or.inr (Or.inl (scopedStoryLookup_provenance (by rw [hL4, h]))))
        | none =>
          simp only [hL4] at h
          cases hL5 : m.tasks.lookup ref with
          | some w =>
            simp only [hL5] at h
            exact Or.inr (Or.inr (Or.inr (Or.inl ⟨ref, by rw [hL5, h]⟩)))
          | none =>
            simp only [hL5] at h
            rcases hsd : ctx.storyDirName with _ | sd
            · simp [hsd] at h
            · simp only [hsd] at h
              exact Or.inr (Or.inr (Or.inr (Or.inr ⟨(sd, ref), h⟩)))
    · exact Or.inl hep

/-- Under `GoodValues`, a successful conversion yields a JIRA-key-shaped or
empty string. -/
theorem convert_conv_good {t : Chars} {m : ReferenceMapping} {ctx : RefContext}
    (hg : GoodValues m) (h : (convert_reference t m ctx).2 = true) :
    jiraShaped (convert_reference t m ctx).1 = true ∨
      (convert_reference t m ctx).1 = [] := by
  unfold convert_reference at h ⊢
  by_cases h1 : is_jira_key (pyStrip t) = true
  · simp [h1] at h
  · by_cases h2 : isNoneSentinel (pyStrip t) = true
    · simp [h1, h2] at h
    · simp only [h1, h2, Bool.false_eq_true, if_false] at h ⊢
      cases hl : convertLookup (pyStrip t) m ctx with
      | none =>
        rw [hl] at h
        exact Bool.noConfusion h
      | some v =>
        show jiraShaped v = true ∨ v = []
        rcases convertLookup_provenance hl with ⟨k, hk⟩ | ⟨k, hk⟩ | ⟨k, hk⟩ |
          ⟨k, hk⟩ | ⟨k, hk⟩
        · exact hg.1 _ (lookup_mem hk)
        · exact hg.2.1 _ (lookup_mem hk)
        · exact hg.2.2.1 _ (lookup_mem hk)
        · exact hg.2.2.2.1 _ (lookup_mem hk)
        · exact hg.2.2.2.2 _ (lookup_mem hk)

/-! ## Core lemmas about `replFix` (the refs-cell rewrite) -/

theorem cellTokens_stripped {t c : Chars} (h : t ∈ cellTokens c) : pyStrip t = t := by
  obtain ⟨p, _, rfl⟩ := List.mem_map.mp h
  exact pyStrip_idem p

theorem cellTokens_no_comma {t c : Chars} (h : t ∈ cellTokens c) : ',' ∉ t := by
  obtain ⟨p, hp, rfl⟩ := List.mem_map.mp h
  intro hc
  exact mem_splitComma_no_comma hp (mem_pyStrip_sub hc)

theorem cellTokens_ne_nil (c : Chars) : cellTokens c ≠ [] := by
  unfold cellTokens
  intro h
  exact splitComma_ne_nil _ (List.map_eq_nil.mp h)

theorem bool_not_true {b : Bool} (h : ¬(b = true)) : b = false := by
  cases b
  · rfl
  · exact absurd rfl h

/-- Under `GoodValues`, token conversion outputs are stripped and comma-free
(for comma-free stripped inputs). -/
theorem convert_out_stripped_nocomma {t : Chars} {m : ReferenceMapping}
    {ctx : RefContext} (hg : GoodValues m) (hst : pyStrip t = t) (hcf : ',' ∉ t) :
    pyStrip (convert_reference t m ctx).1 = (convert_reference t m ctx).1 ∧
      ',' ∉ (convert_reference t m ctx).1 := by
  by_cases hconv : (convert_reference t m ctx).2 = true
  · rcases convert_conv_good hg hconv with hj | he
    · exact ⟨strip_of_jiraShaped hj, no_comma_of_jiraShaped hj⟩
    · rw [he]
      exact ⟨rfl, by simp⟩
  · rw [convert_fst_of_not_conv (bool_not_true hconv), hst]
    exact ⟨hst, hcf⟩

/-- Under `GoodValues`, converting a conversion output is a no-op pass-through. -/
theorem convert_out_pass {t : Chars} {m : ReferenceMapping} {ctx : RefContext}
    (hg : GoodValues m) :
    convert_reference (convert_reference t m ctx).1 m ctx
      = ((convert_reference t m ctx).1, false) := by
  by_cases hconv : (convert_reference t m ctx).2 = true
  · rcases convert_conv_good hg hconv with hj | he
    · have h1 := convert_jira_passthrough (t := (convert_reference t m ctx).1) m ctx
        (by rw [strip_of_jiraShaped hj]; exact hj)
      rw [h1, strip_of_jiraShaped hj]
    · rw [he]
      have h2 := convert_sentinel_passthrough (t := ([] : Chars)) m ctx
        (by decide) (by decide)
      rw [h2]
      rfl
  · have h2 : (convert_reference t m ctx).2 = false := bool_not_true hconv
    rw [convert_fst_of_not_conv h2, convert_reference_strip]
    exact Prod.ext (convert_fst_of_not_conv h2) h2

/-- A refs cell whose stripped value is not a none/empty sentinel is not all
whitespace, so `wsPre` is its whitespace prefix. -/
theorem wsPre_of_not_sentinel {c : Chars} (h : isNoneSentinel (pyStrip c) = false) :
    wsPre c = c.takeWhile isPyWs := by
  unfold wsPre
  rw [if_neg]
  intro he
  rw [he] at h
  rw [sentinel_nil] at h
  cases h

theorem wsPre_all_ws {c : Chars} (h : isNoneSentinel (pyStrip c) = false) :
    ∀ a ∈ wsPre c, isPyWs a = true := by
  rw [wsPre_of_not_sentinel h]
  intro a ha
  exact List.mem_takeWhile_imp ha

/-- The stripped content of a rewritten refs cell is the stripped joined
converted-token list. -/
theorem pyStrip_replFix {m : ReferenceMapping} {ctx : RefContext} {c : Chars}
    (hns : isNoneSentinel (pyStrip c) = false) :
    pyStrip (replFix m ctx c) =
      pyStrip (joinComma ((cellTokens c).map fun t => (convert_reference t m ctx).1)) := by
  unfold replFix
  rw [if_neg (by rw [hns]; exact Bool.noConfusion)]
  rw [List.append_assoc, pyStrip_append_left (wsPre_all_ws hns),
    pyStrip_append_right (w := [' ']) (by intro a ha; simp at ha; simp [ha, isPyWs])]

/-- The joined converted-token list starts with a non-whitespace character
whenever its strip is nonempty. -/
theorem takeWhile_ws_join {conv : List Chars} (hst : ∀ o ∈ conv, pyStrip o = o)
    (hjoin : pyStrip (joinComma conv) ≠ []) :
    (joinComma conv ++ [' ']).takeWhile isPyWs = [] := by
  match conv with
  | [] => exact absurd rfl hjoin
  | [o] =>
    cases o with
    | nil => exact absurd rfl hjoin
    | cons a as =>
      have hnw : isPyWs a = false := stripped_head_not_ws (hst (a :: as) (by simp)) rfl
      show ((a :: as) ++ [' ']).takeWhile isPyWs = []
      rw [List.cons_append]
      exact takeWhile_cons_neg _ hnw
  | o :: p :: rest =>
    cases o with
    | nil =>
      show ((([] : Chars) ++ ',' :: ' ' :: joinComma (p :: rest)) ++ [' ']).takeWhile
        isPyWs = []
      simp only [List.nil_append, List.cons_append]
      exact takeWhile_cons_neg _ comma_not_ws
    | cons a as =>
      have hnw : isPyWs a = false := stripped_head_not_ws (hst (a :: as) (by simp)) rfl
      show (((a :: as) ++ ',' :: ' ' :: joinComma (p :: rest)) ++ [' ']).takeWhile
        isPyWs = []
      simp only [List.cons_append]
      exact takeWhile_cons_neg _ hnw

/-- Idempotence of the refs-cell rewrite under `GoodValues`. -/
theorem replFix_idem {m : ReferenceMapping} {ctx : RefContext} (hg : GoodValues m)
    (c : Chars) : replFix m ctx (replFix m ctx c) = replFix m ctx c := by
  by_cases hs : isNoneSentinel (pyStrip c) = true
  · have h1 : replFix m ctx c = c := by unfold replFix; rw [if_pos hs]
    rw [h1, h1]
  · have hs' : isNoneSentinel (pyStrip c) = false := bool_not_true hs
    have hout : replFix m ctx c =
        wsPre c ++ joinComma ((cellTokens c).map fun t => (convert_reference t m ctx).1)
          ++ [' '] := by
      unfold replFix
      rw [if_neg hs]
    have hstripout := @pyStrip_replFix m ctx _ hs'
    by_cases hs2 : isNoneSentinel (pyStrip (replFix m ctx c)) = true
    · conv_lhs => rw [replFix]
      rw [if_pos hs2]
    · have hconvstr : ∀ o ∈ (cellTokens c).map fun t => (convert_reference t m ctx).1,
          pyStrip o = o :=
        fun o ho => by
          obtain ⟨t, ht, rfl⟩ := List.mem_map.mp ho
          exact (convert_out_stripped_nocomma hg (cellTokens_stripped ht)
            (cellTokens_no_comma ht)).1
      have hconvcf : ∀ o ∈ (cellTokens c).map fun t => (convert_reference t m ctx).1,
          ',' ∉ o :=
        fun o ho => by
          obtain ⟨t, ht, rfl⟩ := List.mem_map.mp ho
          exact (convert_out_stripped_nocomma hg (cellTokens_stripped ht)
            (cellTokens_no_comma ht)).2
      have hconvne : ((cellTokens c).map fun t => (convert_reference t m ctx).1) ≠ [] := by
        intro h
        exact cellTokens_ne_nil c (List.map_eq_nil.mp h)
      -- the second pass re-parses exactly the converted tokens
      have hcells : cellTokens (replFix m ctx c) =
          (cellTokens c).map fun t => (convert_reference t m ctx).1 := by
        unfold cellTokens
        rw [hstripout]
        exact splitStrip_join hconvne hconvstr hconvcf
      -- and converting them again changes nothing
      have hconv2 : (cellTokens (replFix m ctx c)).map
            (fun t => (convert_reference t m ctx).1)
          = (cellTokens c).map fun t => (convert_reference t m ctx).1 := by
        rw [hcells, List.map_map]
        refine List.map_congr_left ?_
        intro t _
        show (convert_reference (convert_reference t m ctx).1 m ctx).1
          = (convert_reference t m ctx).1
        rw [convert_out_pass hg]
      -- and the whitespace prefix is unchanged
      have hwspre : wsPre (replFix m ctx c) = wsPre c := by
        rw [wsPre_of_not_sentinel (bool_not_true hs2), hout, List.append_assoc,
          takeWhile_append_sat _ (wsPre_all_ws hs'),
          takeWhile_ws_join hconvstr (by
            rw [← hstripout]
            intro he
            rw [he] at hs2
            exact hs2 sentinel_nil),
          List.append_nil]
      conv_lhs => rw [replFix]
      rw [if_neg hs2, hconv2, hwspre, ← hout]

/-! ## Match marks: which blocks are refs cells of matches of the scan

`marksGo`/`marksAfter` mirror the scan `goSub`/`goAfter` but only record, per
block, whether it is the refs cell of a match.  The scan equals the pointwise
replacement of the marked blocks (`goSub_fst_eq_mask`). -/

mutual

def marksGo (name : Chars) : List Chars → List Bool
  | [] => []
  | [_] => [false]
  | b :: c :: rest =>
    if nameBlk name b && decide (c ≠ []) && decide (rest ≠ []) then
      false :: true :: marksAfter name rest
    else false :: marksGo name (c :: rest)

def marksAfter (name : Chars) : List Chars → List Bool
  | [] => []
  | _ :: rest => false :: marksGo name rest

end

theorem marksGo_length (name : Chars) :
    ∀ bs : List Chars, (marksGo name bs).length = bs.length
  | [] => rfl
  | [b] => rfl
  | b :: c :: rest => by
    by_cases h : (nameBlk name b && decide (c ≠ []) && decide (rest ≠ [])) = true
    · rw [marksGo, if_pos h]
      cases rest with
      | nil => rfl
      | cons d rest2 =>
        rw [marksAfter]
        simp [marksGo_length name rest2]
    · rw [marksGo, if_neg h]
      simp [marksGo_length name (c :: rest)]

/-- The content part of the scan is the pointwise rewrite of marked blocks. -/
theorem goSub_fst_eq_mask {σ : Type} (name : Chars) (repl : Chars → Chars × σ) :
    ∀ bs : List Chars, (goSub name repl bs).1 =
      List.zipWith (fun mk b => if mk then (repl b).1 else b) (marksGo name bs) bs
  | [] => rfl
  | [b] => rfl
  | b :: c :: rest => by
    by_cases h : (nameBlk name b && decide (c ≠ []) && decide (rest ≠ [])) = true
    · rw [goSub, marksGo, if_pos h, if_pos h]
      cases rest with
      | nil => rfl
      | cons d rest2 =>
        rw [goAfter, marksAfter]
        simp only [List.zipWith_cons_cons, if_true, if_false,
          goSub_fst_eq_mask name repl rest2]
        rfl
    · rw [goSub, marksGo, if_neg h, if_neg h]
      simp only [List.zipWith_cons_cons, goSub_fst_eq_mask name repl (c :: rest)]
      rfl

/-- The side outputs of the scan are those of the marked blocks, in order. -/
theorem goSub_snd_eq_mask {σ : Type} (name : Chars) (repl : Chars → Chars × σ) :
    ∀ bs : List Chars, (goSub name repl bs).2 =
      (List.zip (marksGo name bs) bs).filterMap
        (fun p => if p.1 then some (repl p.2).2 else none)
  | [] => rfl
  | [b] => rfl
  | b :: c :: rest => by
    by_cases h : (nameBlk name b && decide (c ≠ []) && decide (rest ≠ [])) = true
    · rw [goSub, marksGo, if_pos h, if_pos h]
      cases rest with
      | nil => rfl
      | cons d rest2 =>
        rw [goAfter, marksAfter]
        simp only [List.zip_cons_cons, List.filterMap_cons,
          goSub_snd_eq_mask name repl rest2]
        rfl
    · rw [goSub, marksGo, if_neg h, if_neg h]
      simp only [List.zip_cons_cons, List.filterMap_cons,
        goSub_snd_eq_mask name repl (c :: rest)]
      rfl

/-- A marked block follows a name cell and is nonempty. -/
theorem marksGo_true_spec (name : Chars) :
    ∀ (bs : List Chars) (i : Nat), (marksGo name bs).getD i false = true →
      0 < i ∧ nameBlk name (bs.getD (i - 1) []) = true ∧ bs.getD i [] ≠ []
  | [], i, h => by simp [marksGo] at h
  | [b], i, h => by
    unfold marksGo at h
    rcases i with _ | j
    · simp at h
    · simp at h
  | b :: c :: rest, i, h => by
    by_cases hc : (nameBlk name b && decide (c ≠ []) && decide (rest ≠ [])) = true
    · rw [marksGo, if_pos hc] at h
      rcases i with _ | _ | j
      · simp at h
      · have hc' := hc
        simp only [Bool.and_eq_true, decide_eq_true_eq] at hc'
        refine ⟨by omega, ?_, ?_⟩
        · simpa using hc'.1.1
        · simpa using hc'.1.2
      · cases rest with
        | nil => simp [marksAfter] at h
        | cons d rest2 =>
          rw [marksAfter] at h
          rcases j with _ | k
          · simp at h
          · obtain ⟨hk, hname, hne⟩ := marksGo_true_spec name rest2 k (by simpa using h)
            obtain ⟨k', rfl⟩ := Nat.exists_eq_succ_of_ne_zero (Nat.pos_iff_ne_zero.mp hk)
            refine ⟨by omega, ?_, ?_⟩
            · simpa using hname
            · simpa using hne
    · rw [marksGo, if_neg hc] at h
      rcases i with _ | j
      · simp at h
      · obtain ⟨hj, hname, hne⟩ := marksGo_true_spec name (c :: rest) j (by simpa using h)
        obtain ⟨j', rfl⟩ := Nat.exists_eq_succ_of_ne_zero (Nat.pos_iff_ne_zero.mp hj)
        refine ⟨by omega, ?_, ?_⟩
        · simpa using hname
        · simpa using hne

/-- The only data about a block that the mark computation reads: whether it
is a name cell, and whether it is empty. -/
def blkKey (name b : Chars) : Bool × Bool := (nameBlk name b, decide (b = []))

theorem marksGo_congr (name : Chars) :
    ∀ (bs bs' : List Chars), bs.map (blkKey name) = bs'.map (blkKey name) →
      marksGo name bs = marksGo name bs'
  | [], [], _ => rfl
  | [], _ :: _, h => by simp at h
  | _ :: _, [], h => by simp at h
  | [_], [_], _ => rfl
  | [b], _ :: _ :: _, h => by simp at h
  | _ :: _ :: _, [b'], h => by simp at h
  | b :: c :: rest, b' :: c' :: rest', h => by
    simp only [List.map_cons, List.cons.injEq] at h
    obtain ⟨hb, hc, hrest⟩ := h
    have hnb : nameBlk name b = nameBlk name b' := congrArg Prod.fst hb
    have hce : decide (c = []) = decide (c' = []) := congrArg Prod.snd hc
    have hcne : decide (c ≠ []) = decide (c' ≠ []) := by
      rw [decide_not, decide_not, hce]
    have hlen : rest.length = rest'.length := by
      have := congrArg List.length hrest
      simpa using this
    have hrne : decide (rest ≠ []) = decide (rest' ≠ []) := by
      cases rest with
      | nil => cases rest' with
        | nil => rfl
        | cons _ _ => simp at hlen
      | cons _ _ => cases rest' with
        | nil => simp at hlen
        | cons _ _ => simp
    have hcond : (nameBlk name b && decide (c ≠ []) && decide (rest ≠ []))
        = (nameBlk name b' && decide (c' ≠ []) && decide (rest' ≠ [])) := by
      rw [hnb, hcne, hrne]
    by_cases hco : (nameBlk name b && decide (c ≠ []) && decide (rest ≠ [])) = true
    · rw [marksGo, if_pos hco, marksGo, if_pos (hcond ▸ hco)]
      cases rest with
      | nil =>
        cases rest' with
        | nil => rfl
        | cons _ _ => simp at hlen
      | cons d r2 =>
        cases rest' with
        | nil => simp at hlen
        | cons d' r2' =>
          rw [marksAfter, marksAfter,
            marksGo_congr name r2 r2' (by simpa using congrArg List.tail hrest)]
    · rw [marksGo, if_neg hco, marksGo, if_neg (hcond ▸ hco)]
      rw [marksGo_congr name (c :: rest) (c' :: rest')
        (by simp only [List.map_cons]; rw [hc, hrest])]

/-! ## Structure of the pipe-block decomposition -/

theorem toBlocks_ne_nil : ∀ s : Chars, toBlocks s ≠ []
  | [] => by simp [toBlocks]
  | c :: cs => by
    unfold toBlocks
    by_cases hc : c = '|'
    · simp [hc]
    · rw [if_neg hc]
      cases h : toBlocks cs with
      | nil => simp
      | cons b bs => simp

theorem fromBlocks_toBlocks : ∀ s : Chars, fromBlocks (toBlocks s) = s
  | [] => rfl
  | c :: cs => by
    unfold toBlocks
    by_cases hc : c = '|'
    · rw [if_pos hc]
      cases h : toBlocks cs with
      | nil => exact absurd h (toBlocks_ne_nil cs)
      | cons b bs =>
        have ih := fromBlocks_toBlocks cs
        rw [h] at ih
        rw [fromBlocks, ih, hc]
        all_goals simp
    · rw [if_neg hc]
      cases h : toBlocks cs with
      | nil => exact absurd h (toBlocks_ne_nil cs)
      | cons b bs =>
        have ih := fromBlocks_toBlocks cs
        rw [h] at ih
        cases bs with
        | nil =>
          rw [fromBlocks]
          rw [fromBlocks] at ih
          rw [ih]
        | cons b2 bs2 =>
          rw [fromBlocks]
          rotate_left
          · simp
          rw [fromBlocks] at ih
          rotate_left
          · simp
          rw [List.cons_append, ih]

theorem toBlocks_no_pipe : ∀ (s : Chars), ∀ b ∈ toBlocks s, '|' ∉ b
  | [], b, hb => by
    simp [toBlocks] at hb
    simp [hb]
  | c :: cs, b, hb => by
    unfold toBlocks at hb
    by_cases hc : c = '|'
    · rw [if_pos hc] at hb
      rcases List.mem_cons.mp hb with h | h
      · simp [h]
      · exact toBlocks_no_pipe cs b h
    · rw [if_neg hc] at hb
      cases h : toBlocks cs with
      | nil => exact absurd h (toBlocks_ne_nil cs)
      | cons q qs =>
        rw [h] at hb
        rcases List.mem_cons.mp hb with h' | h'
        · subst h'
          intro hm
          rcases List.mem_cons.mp hm with h'' | h''
          · exact hc h''.symm
          · exact toBlocks_no_pipe cs q (by rw [h]; simp) h''
        · exact toBlocks_no_pipe cs b (by rw [h]; simp [h'])

theorem toBlocks_single_of_no_pipe : ∀ {b : Chars}, '|' ∉ b → toBlocks b = [b]
  | [], _ => rfl
  | c :: cs, h => by
    unfold toBlocks
    have hc : ¬(c = '|') := fun he => h (by simp [he])
    rw [if_neg hc, toBlocks_single_of_no_pipe (fun hm => h (List.mem_cons_of_mem _ hm))]

theorem toBlocks_append_pipe :
    ∀ {b : Chars} (x : Chars), '|' ∉ b → toBlocks (b ++ '|' :: x) = b :: toBlocks x
  | [], x, _ => by simp [toBlocks]
  | c :: cs, x, h => by
    have hc : ¬(c = '|') := fun he => h (by simp [he])
    have ih := toBlocks_append_pipe x (fun hm => h (List.mem_cons_of_mem _ hm))
    show toBlocks (c :: (cs ++ '|' :: x)) = (c :: cs) :: toBlocks x
    rw [toBlocks, if_neg hc, ih]

theorem toBlocks_fromBlocks :
    ∀ {bs : List Chars}, bs ≠ [] → (∀ b ∈ bs, '|' ∉ b) →
      toBlocks (fromBlocks bs) = bs
  | [], h, _ => absurd rfl h
  | [b], _, hp => by
    rw [fromBlocks]
    exact toBlocks_single_of_no_pipe (hp b (by simp))
  | b :: c :: bs, _, hp => by
    rw [fromBlocks, toBlocks_append_pipe _ (hp b (by simp)),
      toBlocks_fromBlocks (by simp) (fun x hx => hp x (by simp [hx]))]
    simp

/-! ## Signature preservation of the refs-cell rewrite -/

theorem mem_splitComma_sub {a : Char} :
    ∀ {p s : Chars}, p ∈ splitComma s → a ∈ p → a ∈ s := by
  intro p s
  induction s generalizing p with
  | nil =>
    intro hp ha
    simp [splitComma] at hp
    rw [hp] at ha
    cases ha
  | cons c cs ih =>
    intro hp ha
    by_cases hc : c = ','
    · rw [splitComma, if_pos hc] at hp
      rcases List.mem_cons.mp hp with h | h
      · rw [h] at ha; cases ha
      · exact List.mem_cons_of_mem _ (ih h ha)
    · rw [splitComma, if_neg hc] at hp
      cases hcs : splitComma cs with
      | nil => exact absurd hcs (splitComma_ne_nil cs)
      | cons q qs =>
        rw [hcs] at hp
        rcases List.mem_cons.mp hp with h | h
        · subst h
          rcases List.mem_cons.mp ha with h' | h'
          · simp [h']
          · exact List.mem_cons_of_mem _ (ih (p := q) (by rw [hcs]; simp) h')
        · exact List.mem_cons_of_mem _ (ih (by rw [hcs]; simp [h]) ha)

theorem mem_joinComma_cases {a : Char} :
    ∀ {ts : List Chars}, a ∈ joinComma ts →
      (∃ t ∈ ts, a ∈ t) ∨ a = ',' ∨ a = ' '
  | [], h => by cases h
  | [t], h => Or.inl ⟨t, by simp, h⟩
  | t :: u :: ts, h => by
    have hj : joinComma (t :: u :: ts) = t ++ ',' :: ' ' :: joinComma (u :: ts) := rfl
    rw [hj] at h
    rcases List.mem_append.mp h with h' | h'
    · exact Or.inl ⟨t, by simp, h'⟩
    · rcases List.mem_cons.mp h' with h'' | h''
      · exact Or.inr (Or.inl h'')
      · rcases List.mem_cons.mp h'' with h3 | h3
        · exact Or.inr (Or.inr h3)
        · rcases mem_joinComma_cases h3 with ⟨w, hw, haw⟩ | h4
          · exact Or.inl ⟨w, by simp at hw ⊢; tauto, haw⟩
          · exact Or.inr h4

theorem mem_cellTokens_sub {a : Char} {t c : Chars} (ht : t ∈ cellTokens c)
    (ha : a ∈ t) : a ∈ c := by
  obtain ⟨p, hp, rfl⟩ := List.mem_map.mp ht
  exact mem_pyStrip_sub (mem_splitComma_sub hp (mem_pyStrip_sub ha))

theorem replFix_nil (m : ReferenceMapping) (ctx : RefContext) :
    replFix m ctx [] = [] := by
  unfold replFix
  rw [if_pos (by decide)]

theorem replFix_empty_iff (m : ReferenceMapping) (ctx : RefContext) (c : Chars) :
    (replFix m ctx c = []) ↔ (c = []) := by
  constructor
  · intro h
    by_contra hne
    unfold replFix at h
    split_ifs at h with hs
    · exact hne h
    · simp at h
  · intro h
    rw [h, replFix_nil]

theorem replFix_no_pipe {m : ReferenceMapping} {ctx : RefContext} {c : Chars}
    (hg : GoodValues m) (hp : '|' ∉ c) : '|' ∉ replFix m ctx c := by
  unfold replFix
  split_ifs with hs
  · exact hp
  · intro hmem
    rcases List.mem_append.mp hmem with h | h
    · rcases List.mem_append.mp h with h' | h'
      · -- inside wsPre c ⊆ c
        rw [wsPre_of_not_sentinel (bool_not_true hs)] at h'
        exact hp ((List.takeWhile_sublist (l := c) isPyWs).subset h')
      · rcases mem_joinComma_cases h' with ⟨o, ho, hao⟩ | h4
        · obtain ⟨t, ht, rfl⟩ := List.mem_map.mp ho
          by_cases hconv : (convert_reference t m ctx).2 = true
          · rcases convert_conv_good hg hconv with hj | he
            · exact no_pipe_of_jiraShaped hj hao
            · rw [he] at hao; cases hao
          · rw [convert_fst_of_not_conv (bool_not_true hconv)] at hao
            exact hp (mem_cellTokens_sub ht (by
              rw [cellTokens_stripped ht] at hao; exact hao))
        · rcases h4 with h4 | h4 <;> exact absurd h4 (by decide)
    · simp at h

/-- Bundled side conditions on a reference-field name: string-shape facts
(all decidable for the four concrete names) plus the condition that no
lookup table resolves the field-name string itself. -/
structure FieldNameOK (m : ReferenceMapping) (ctx : RefContext) (N : Chars) : Prop
    where
  stripped : pyStrip N = N
  nonsent : isNoneSentinel N = false
  nonjira : jiraShaped N = false
  nocomma : ',' ∉ N
  nonnil : N ≠ []
  noconv : (convert_reference N m ctx).2 = false

theorem fieldNameOK_pass {m : ReferenceMapping} {ctx : RefContext} {N : Chars}
    (h : FieldNameOK m ctx N) : convert_reference N m ctx = (N, false) :=
  Prod.ext (by rw [convert_fst_of_not_conv h.noconv, h.stripped]) h.noconv

theorem comma_mem_join₂ (o p : Chars) (rest : List Chars) :
    ',' ∈ joinComma (o :: p :: rest) := by
  have hj : joinComma (o :: p :: rest) = o ++ ',' :: ' ' :: joinComma (p :: rest) := rfl
  rw [hj]
  simp

theorem convTokens_facts {m : ReferenceMapping} {ctx : RefContext} {c : Chars}
    (hg : GoodValues m) :
    ∀ o ∈ (cellTokens c).map fun t => (convert_reference t m ctx).1,
      pyStrip o = o ∧ ',' ∉ o := by
  intro o ho
  obtain ⟨t, ht, rfl⟩ := List.mem_map.mp ho
  exact convert_out_stripped_nocomma hg (cellTokens_stripped ht)
    (cellTokens_no_comma ht)

theorem beq_congr_chars {a a' b : Chars} (h : a = b ↔ a' = b) :
    (a == b) = (a' == b) := by
  by_cases h2 : a' = b
  · rw [beq_iff_eq.mpr h2, beq_iff_eq.mpr (h.mpr h2)]
  · have h3 : ¬(a = b) := fun ha => h2 (h.mp ha)
    rw [beq_eq_false_iff_ne.mpr h3, beq_eq_false_iff_ne.mpr h2]

/-- A refs-cell rewrite never creates or destroys a name cell. -/
theorem nameBlk_replFix {m : ReferenceMapping} {ctx : RefContext} {N c : Chars}
    (hg : GoodValues m) (hN : FieldNameOK m ctx N) :
    nameBlk N (replFix m ctx c) = nameBlk N c := by
  by_cases hs : isNoneSentinel (pyStrip c) = true
  · unfold replFix
    rw [if_pos hs]
  · have hs' := bool_not_true hs
    have hstrip := @pyStrip_replFix m ctx c hs'
    unfold nameBlk
    rw [hstrip]
    refine beq_congr_chars ?_
    constructor
    · -- a rewritten cell stripping to the name means the cell already did
      intro h1
      rcases hcv : (cellTokens c).map (fun t => (convert_reference t m ctx).1) with
        _ | ⟨o, _ | ⟨p, rest⟩⟩
      · exact absurd (List.map_eq_nil_iff.mp hcv) (cellTokens_ne_nil c)
      · -- single converted token
        rw [hcv] at h1
        have ho : pyStrip o = o := by
          have := convTokens_facts (c := c) hg o (by rw [hcv]; simp)
          exact this.1
        have h2 : o = N := by
          have : joinComma [o] = o := rfl
          rw [this, ho] at h1
          exact h1
        rcases hct : cellTokens c with _ | ⟨t1, _ | _⟩
        · exact absurd hct (cellTokens_ne_nil c)
        · rw [hct] at hcv
          have hfo : (convert_reference t1 m ctx).1 = o := by
            have := List.cons.injEq (convert_reference t1 m ctx).1 [] o []
            simpa using hcv
          by_cases hconv : (convert_reference t1 m ctx).2 = true
          · rcases convert_conv_good hg hconv with hj | he
            · rw [hfo, h2] at hj
              exact absurd hj (by rw [hN.nonjira]; exact Bool.noConfusion)
            · rw [hfo, h2] at he
              exact absurd he hN.nonnil
          · have hst1 : pyStrip t1 = t1 := cellTokens_stripped (by rw [hct]; simp)
            have ht1 : t1 = N := by
              rw [convert_fst_of_not_conv (bool_not_true hconv), hst1] at hfo
              rw [hfo, h2]
            -- cellTokens c = [t1] forces pyStrip c = t1
            unfold cellTokens at hct
            rcases hsc : splitComma (pyStrip c) with _ | ⟨q, _ | _⟩
            · exact absurd hsc (splitComma_ne_nil _)
            · rw [hsc] at hct
              have hq : pyStrip q = t1 := by simpa using hct
              have := splitComma_singleton hsc
              rw [← this, pyStrip_idem] at hq
              rw [hq, ht1]
            · rw [hsc] at hct
              simp at hct
        · rw [hct] at hcv
          simp at hcv
      · -- two or more tokens: the joined cell contains a comma, the name not
        exfalso
        rw [hcv] at h1
        have hcm : (',' : Char) ∈ pyStrip (joinComma (o :: p :: rest)) :=
          mem_pyStrip_of_nonws (comma_mem_join₂ o p rest) comma_not_ws
        rw [h1] at hcm
        exact hN.nocomma hcm
    · -- a name cell is rewritten to itself
      intro h2
      have hct : cellTokens c = [N] := by
        unfold cellTokens
        rw [h2, splitComma_no_comma hN.nocomma]
        simp [hN.stripped]
      rw [hct]
      have : [N].map (fun t => (convert_reference t m ctx).1) = [N] := by
        simp [fieldNameOK_pass hN]
      rw [this]
      have : joinComma [N] = N := rfl
      rw [this, hN.stripped]

/-! ## Composing the four field passes -/

/-- Pointwise masked rewrite of a block list. -/
def maskBlocks (f : Chars → Chars) (ms : List Bool) (bs : List Chars) : List Chars :=
  List.zipWith (fun mk b => if mk then f b else b) ms bs

theorem maskBlocks_length {f : Chars → Chars} {ms : List Bool} {bs : List Chars}
    (h : ms.length = bs.length) : (maskBlocks f ms bs).length = bs.length := by
  unfold maskBlocks
  rw [List.length_zipWith, h, Nat.min_self]

theorem maskBlocks_getD {f : Chars → Chars} {ms : List Bool} {bs : List Chars}
    (h : ms.length = bs.length) (i : Nat) (hi : i < bs.length) :
    (maskBlocks f ms bs).getD i [] =
      if ms.getD i false then f (bs.getD i []) else bs.getD i [] := by
  unfold maskBlocks
  have hlen : i < (List.zipWith (fun mk b => if mk then f b else b) ms bs).length := by
    rw [List.length_zipWith, h, Nat.min_self]
    exact hi
  rw [List.getD_eq_getElem _ _ hlen, List.getElem_zipWith,
    List.getD_eq_getElem _ _ (by rw [h]; exact hi), List.getD_eq_getElem _ _ hi]

theorem maskBlocks_key_map {f : Chars → Chars} {N : Chars} {ms : List Bool}
    {bs : List Chars} (hf : ∀ b, blkKey N (f b) = blkKey N b)
    (h : ms.length = bs.length) :
    (maskBlocks f ms bs).map (blkKey N) = bs.map (blkKey N) := by
  induction bs generalizing ms with
  | nil => cases ms <;> rfl
  | cons b bs ih =>
    cases ms with
    | nil => cases h
    | cons mk ms' =>
      show ((if mk then f b else b) :: maskBlocks f ms' bs).map (blkKey N)
        = blkKey N b :: bs.map (blkKey N)
      rw [List.map_cons, ih (by simpa using h)]
      by_cases hmk : mk = true
      · rw [if_pos hmk, hf b]
      · rw [if_neg hmk]

theorem maskBlocks_no_pipe {f : Chars → Chars} {ms : List Bool} {bs : List Chars}
    (hf : ∀ b, '|' ∉ b → '|' ∉ f b) (hbs : ∀ b ∈ bs, '|' ∉ b) :
    ∀ b ∈ maskBlocks f ms bs, '|' ∉ b := by
  induction bs generalizing ms with
  | nil => intro b hb; cases ms <;> cases hb
  | cons c cs ih =>
    intro b hb
    cases ms with
    | nil => cases hb
    | cons mk ms' =>
      rcases List.mem_cons.mp hb with h | h
      · subst h
        show '|' ∉ (if mk = true then f c else c)
        by_cases hmk : mk = true
        · rw [if_pos hmk]
          exact hf c (hbs c (by simp))
        · rw [if_neg hmk]
          exact hbs c (by simp)
      · exact ih (fun x hx => hbs x (by simp [hx])) b h

theorem blkKey_replFix {m : ReferenceMapping} {ctx : RefContext} {N : Chars}
    (hg : GoodValues m) (hN : FieldNameOK m ctx N) (b : Chars) :
    blkKey N (replFix m ctx b) = blkKey N b := by
  unfold blkKey
  rw [nameBlk_replFix hg hN]
  congr 1
  by_cases hb : b = []
  · rw [hb, replFix_nil]
  · have : replFix m ctx b ≠ [] := fun he => hb ((replFix_empty_iff m ctx b).mp he)
    simp [hb, this]

/-- One field pass leaves every field's marks unchanged. -/
theorem marksGo_maskBlocks {m : ReferenceMapping} {ctx : RefContext} {N' : Chars}
    (hg : GoodValues m) (hN' : FieldNameOK m ctx N') {ms : List Bool} {bs : List Chars}
    (h : ms.length = bs.length) :
    marksGo N' (maskBlocks (replFix m ctx) ms bs) = marksGo N' bs :=
  marksGo_congr N' _ _ (maskBlocks_key_map (blkKey_replFix hg hN') h)

theorem replFixAcc_fst (fn : Chars) (m : ReferenceMapping) (ctx : RefContext)
    (c : Chars) : (replFixAcc fn m ctx c).1 = replFix m ctx c := by
  unfold replFixAcc
  split_ifs with h
  · unfold replFix
    rw [if_pos h]
  · rfl

/-- One field pass on the content, in block form. -/
theorem toBlocks_pass {m : ReferenceMapping} {ctx : RefContext} (fn : Chars)
    (hg : GoodValues m) {content b0 : Chars} {bs : List Chars}
    (h : toBlocks content = b0 :: bs) :
    toBlocks (subFieldAcc fn (replFixAcc fn m ctx) content).1 =
      b0 :: maskBlocks (replFix m ctx) (marksGo fn bs) bs := by
  have hfe : (fun (mk : Bool) (b : Chars) => if mk then (replFixAcc fn m ctx b).1 else b)
      = (fun (mk : Bool) (b : Chars) => if mk then replFix m ctx b else b) := by
    funext mk b
    rw [replFixAcc_fst]
  have hc : (subFieldAcc fn (replFixAcc fn m ctx) content).1 =
      fromBlocks (b0 :: maskBlocks (replFix m ctx) (marksGo fn bs) bs) := by
    simp only [subFieldAcc, h]
    rw [goSub_fst_eq_mask, hfe]
    rfl
  rw [hc]
  refine toBlocks_fromBlocks (by simp) ?_
  intro b hb
  rcases List.mem_cons.mp hb with h0 | h0
  · exact h0 ▸ toBlocks_no_pipe content b0 (by rw [h]; simp)
  · exact maskBlocks_no_pipe (fun x hx => replFix_no_pipe hg hx)
      (fun x hx => toBlocks_no_pipe content x (by rw [h]; simp [hx])) b h0

/-- The block-level composition of the field passes done by `fixRefsWith`. -/
def chainPass (m : ReferenceMapping) (ctx : RefContext) (names : List Chars)
    (bs : List Chars) : List Chars :=
  names.foldl (fun acc N => maskBlocks (replFix m ctx) (marksGo N acc) acc) bs

theorem chainPass_cons (m : ReferenceMapping) (ctx : RefContext) (N : Chars)
    (rest : List Chars) (bs : List Chars) :
    chainPass m ctx (N :: rest) bs =
      chainPass m ctx rest (maskBlocks (replFix m ctx) (marksGo N bs) bs) := rfl

theorem chainPass_length (m : ReferenceMapping) (ctx : RefContext) :
    ∀ (names : List Chars) (bs : List Chars),
      (chainPass m ctx names bs).length = bs.length
  | [], _ => rfl
  | N :: rest, bs => by
    rw [chainPass_cons, chainPass_length m ctx rest,
      maskBlocks_length (marksGo_length N bs)]

theorem chainPass_marks {m : ReferenceMapping} {ctx : RefContext} {N' : Chars}
    (hg : GoodValues m) (hN' : FieldNameOK m ctx N') :
    ∀ (names : List Chars) (bs : List Chars),
      marksGo N' (chainPass m ctx names bs) = marksGo N' bs
  | [], _ => rfl
  | N :: rest, bs => by
    rw [chainPass_cons, chainPass_marks hg hN' rest,
      marksGo_maskBlocks hg hN' (marksGo_length N bs)]

theorem any_congr_mem {α : Type} {p q : α → Bool} :
    ∀ {l : List α}, (∀ a ∈ l, p a = q a) → l.any p = l.any q
  | [], _ => rfl
  | a :: l, h => by
    rw [List.any_cons, List.any_cons, h a (by simp),
      any_congr_mem (fun x hx => h x (by simp [hx]))]

/-- Value of a block after the chained passes: it is rewritten once by
`replFix` iff some pass marks it, and the marks are those of the ORIGINAL
block list. -/
theorem chainPass_getD {m : ReferenceMapping} {ctx : RefContext}
    (hg : GoodValues m) :
    ∀ (names : List Chars), (∀ N ∈ names, FieldNameOK m ctx N) →
      ∀ (bs : List Chars) (i : Nat), i < bs.length →
      (chainPass m ctx names bs).getD i [] =
        if names.any (fun N => (marksGo N bs).getD i false)
        then replFix m ctx (bs.getD i []) else bs.getD i []
  | [], _, bs, i, _ => by
    rw [List.any_nil, if_neg (by simp)]
    rfl
  | N :: rest, hns, bs, i, hi => by
    rw [chainPass_cons]
    have hlen : (maskBlocks (replFix m ctx) (marksGo N bs) bs).length = bs.length :=
      maskBlocks_length (marksGo_length N bs)
    have hih := chainPass_getD hg rest (fun x hx => hns x (by simp [hx]))
      (maskBlocks (replFix m ctx) (marksGo N bs) bs) i (by rw [hlen]; exact hi)
    have hmarks : rest.any
        (fun N' => (marksGo N' (maskBlocks (replFix m ctx) (marksGo N bs) bs)).getD i false)
        = rest.any (fun N' => (marksGo N' bs).getD i false) := by
      refine any_congr_mem ?_
      intro N' hN'
      rw [marksGo_maskBlocks hg (hns N' (by simp [hN'])) (marksGo_length N bs)]
    have hval : (maskBlocks (replFix m ctx) (marksGo N bs) bs).getD i [] =
        if (marksGo N bs).getD i false then replFix m ctx (bs.getD i [])
        else bs.getD i [] := maskBlocks_getD (marksGo_length N bs) i hi
    rw [hih, hmarks, hval, List.any_cons]
    by_cases hmN : (marksGo N bs).getD i false = true
    · rw [if_pos hmN, hmN, Bool.true_or, if_pos rfl]
      by_cases hr : rest.any (fun N' => (marksGo N' bs).getD i false) = true
      · rw [if_pos hr, replFix_idem hg]
      · rw [if_neg hr]
    · rw [if_neg hmN, Bool.not_eq_true] at *
      rw [hmN, Bool.false_or]

theorem chainPass_idem {m : ReferenceMapping} {ctx : RefContext}
    (hg : GoodValues m) {names : List Chars}
    (hns : ∀ N ∈ names, FieldNameOK m ctx N) (bs : List Chars) :
    chainPass m ctx names (chainPass m ctx names bs) = chainPass m ctx names bs := by
  apply List.ext_getElem
  · rw [chainPass_length, chainPass_length]
  · intro i h1 h2
    have hi : i < bs.length := by
      rw [chainPass_length] at h2
      exact h2
    have hiC : i < (chainPass m ctx names bs).length := h2
    rw [← List.getD_eq_getElem _ [] h1, ← List.getD_eq_getElem _ [] h2]
    rw [chainPass_getD hg names hns _ i hiC, chainPass_getD hg names hns bs i hi]
    have hmks : names.any (fun N => (marksGo N (chainPass m ctx names bs)).getD i false)
        = names.any (fun N => (marksGo N bs).getD i false) := by
      refine any_congr_mem ?_
      intro N hN
      rw [chainPass_marks hg (hns N hN)]
    rw [hmks]
    by_cases hA : names.any (fun N => (marksGo N bs).getD i false) = true
    · simp only [if_pos hA]
      exact replFix_idem hg _
    · simp only [if_neg hA]

/-- The content component of `fixRefsWith` ignores the accumulated counters. -/
theorem fixRefsWith_fst (m : ReferenceMapping) (ctx : RefContext) :
    ∀ (names : List Chars) (content : Chars) (n : Nat) (u : List Chars),
      (names.foldl
        (fun st fn =>
          let t := subFieldAcc fn (replFixAcc fn m ctx) st.1
          (t.1, st.2.1 + ((t.2.map Prod.fst).sum), st.2.2 ++ (t.2.map Prod.snd).flatten))
        (content, n, u)).1 =
      names.foldl (fun c fn => (subFieldAcc fn (replFixAcc fn m ctx) c).1) content
  | [], _, _, _ => rfl
  | fn :: rest, content, n, u => by
    rw [List.foldl_cons, List.foldl_cons]
    exact fixRefsWith_fst m ctx rest _ _ _

/-- Block form of the content component of the full pass sequence. -/
theorem foldPass_blocks {m : ReferenceMapping} {ctx : RefContext}
    (hg : GoodValues m) :
    ∀ (names : List Chars) {content b0 : Chars} {bs : List Chars},
      toBlocks content = b0 :: bs →
      toBlocks (names.foldl (fun c fn => (subFieldAcc fn (replFixAcc fn m ctx) c).1)
          content)
        = b0 :: chainPass m ctx names bs
  | [], _, _, _, h => h
  | fn :: rest, content, b0, bs, h => by
    rw [List.foldl_cons, chainPass_cons]
    exact foldPass_blocks hg rest (toBlocks_pass fn hg h)

/-! ## Claim C3: idempotence of `fix_references_in_content` -/

/-- A mapping whose tables contain a story literally titled `"Depends On"`:
legal input to `fix_references_in_content`, which never inspects its table
keys for collisions with the field names. -/
def cexMapC3 : ReferenceMapping :=
  ⟨[], [(fieldDependsOn, ['A', 'R', 'G', 'U', 'S', '-', '7']),
        (['b'], ['A', 'R', 'G', 'U', 'S', '-', '8'])], [], [], []⟩

def cexCtxC3 : RefContext := ⟨none, none⟩

/-- `"| Blocks | Depends On | x | Depends On |  b  |"`. -/
def cexContentC3 : Chars :=
  ['|', ' '] ++ fieldBlocks ++ [' ', '|', ' '] ++ fieldDependsOn ++
    [' ', '|', ' ', 'x', ' ', '|', ' '] ++ fieldDependsOn ++
    [' ', '|', ' ', ' ', 'b', ' ', ' ', '|']

/-- The literal text of the claim is false: on `cexContentC3` the first run
rewrites the `Blocks` cell `"Depends On"` into a key, which un-shadows the
second `Depends On` name cell, so the second run performs a further rewrite. -/
theorem fix_references_in_content_not_idempotent :
    (fix_references_in_content
        (fix_references_in_content cexContentC3 cexMapC3 cexCtxC3).1
        cexMapC3 cexCtxC3).1
      ≠ (fix_references_in_content cexContentC3 cexMapC3 cexCtxC3).1 := by
  decide

/-- **C3 (amended).** `fix_references_in_content` is idempotent on the content
provided the mapping's values are JIRA-shaped or empty (true of every mapping
built by `build_complete_mapping`) and no field name is itself a convertible
reference or a sentinel (true of the default field names against any mapping
that does not use a field name as an entity title). -/
theorem fix_references_in_content_idempotent {m : ReferenceMapping}
    {ctx : RefContext} (hg : GoodValues m)
    (hns : ∀ N ∈ defaultFieldNames, FieldNameOK m ctx N) (content : Chars) :
    (fix_references_in_content (fix_references_in_content content m ctx).1 m ctx).1
      = (fix_references_in_content content m ctx).1 := by
  unfold fix_references_in_content fixRefsWith
  rw [fixRefsWith_fst, fixRefsWith_fst]
  obtain ⟨b0, bs, h⟩ : ∃ b0 bs, toBlocks content = b0 :: bs := by
    cases hT : toBlocks content with
    | nil => exact absurd hT (toBlocks_ne_nil content)
    | cons x xs => exact ⟨x, xs, rfl⟩
  have h1 := @foldPass_blocks m ctx hg defaultFieldNames _ _ _ h
  have h2 := @foldPass_blocks m ctx hg defaultFieldNames _ _ _ h1
  rw [chainPass_idem hg hns] at h2
  have h3 := congrArg fromBlocks (h2.trans h1.symm)
  rwa [fromBlocks_toBlocks, fromBlocks_toBlocks] at h3

def witMapC3 : ReferenceMapping :=
  ⟨[], [(['S', '1'], ['A', 'R', 'G', 'U', 'S', '-', '1'])], [], [], []⟩

/-- `"| Depends On | S1 |"`. -/
def witContentC3 : Chars :=
  ['|', ' '] ++ fieldDependsOn ++ [' ', '|', ' ', 'S', '1', ' ', '|']

theorem fix_references_in_content_idempotent_witness :
    (fix_references_in_content
        (fix_references_in_content witContentC3 witMapC3 cexCtxC3).1
        witMapC3 cexCtxC3).1
      = (fix_references_in_content witContentC3 witMapC3 cexCtxC3).1 :=
  fix_references_in_content_idempotent
    (by refine ⟨?_, ?_, ?_, ?_, ?_⟩ <;> decide)
    (by
      intro N hN
      simp only [defaultFieldNames, List.mem_cons, List.not_mem_nil, or_false] at hN
      rcases hN with h | h | h | h <;> subst h <;>
        exact ⟨by decide, by decide, by decide, by decide, by decide, by decide⟩)
    witContentC3

/-! ## Claim C10: frame property of the resolution rewrite -/

theorem fix_references_content (m : ReferenceMapping) (ctx : RefContext)
    (content : Chars) :
    (fix_references_in_content content m ctx).1 =
      defaultFieldNames.foldl
        (fun c fn => (subFieldAcc fn (replFixAcc fn m ctx) c).1) content := by
  unfold fix_references_in_content fixRefsWith
  rw [fixRefsWith_fst]

/-- **C10.** Frame property: splitting the document at its pipes, the rewrite
keeps the block structure (same number of blocks, head block byte-for-byte
intact), leaves every block that no field pass marks byte-for-byte unchanged,
and any block it does change is the cell directly following a `| <field> |`
name cell of one of the four reference fields. -/
theorem fix_references_frame {m : ReferenceMapping} {ctx : RefContext}
    (hg : GoodValues m)
    (hns : ∀ N ∈ defaultFieldNames, FieldNameOK m ctx N) {content b0 : Chars}
    {bs : List Chars} (h : toBlocks content = b0 :: bs) :
    ∃ cs : List Chars,
      toBlocks (fix_references_in_content content m ctx).1 = b0 :: cs ∧
      cs.length = bs.length ∧
      (∀ i, i < bs.length →
        (∀ N ∈ defaultFieldNames, (marksGo N bs).getD i false = false) →
        cs.getD i [] = bs.getD i []) ∧
      (∀ i, i < bs.length → cs.getD i [] ≠ bs.getD i [] →
        0 < i ∧ ∃ N ∈ defaultFieldNames, nameBlk N (bs.getD (i - 1) []) = true) := by
  refine ⟨chainPass m ctx defaultFieldNames bs, ?_,
    chainPass_length m ctx defaultFieldNames bs, ?_, ?_⟩
  · rw [fix_references_content]
    exact @foldPass_blocks m ctx hg defaultFieldNames _ _ _ h
  · intro i hi hfalse
    rw [chainPass_getD hg defaultFieldNames hns bs i hi]
    have hany : (defaultFieldNames.any fun N => (marksGo N bs).getD i false) = false := by
      rw [List.any_eq_false]
      intro N hN
      rw [hfalse N hN]
      exact Bool.false_ne_true
    rw [hany, if_neg Bool.false_ne_true]
  · intro i hi hne
    rw [chainPass_getD hg defaultFieldNames hns bs i hi] at hne
    by_cases hA : (defaultFieldNames.any fun N => (marksGo N bs).getD i false) = true
    · obtain ⟨N, hN, hmk⟩ := List.any_eq_true.mp hA
      have hspec := marksGo_true_spec N bs i hmk
      exact ⟨hspec.1, N, hN, hspec.2.1⟩
    · rw [Bool.not_eq_true] at hA
      rw [hA, if_neg Bool.false_ne_true] at hne
      exact absurd rfl hne

def witMapC10 : ReferenceMapping :=
  ⟨[], [(['S', '1'], ['A', 'R', 'G', 'U', 'S', '-', '1'])], [], [], []⟩

def witCtxC10 : RefContext := ⟨none, none⟩

/-- `"| Other | X | Depends On | S1 |"`. -/
def witContentC10 : Chars :=
  ['|', ' ', 'O', 't', 'h', 'e', 'r', ' ', '|', ' ', 'X', ' ', '|', ' '] ++
    fieldDependsOn ++ [' ', '|', ' ', 'S', '1', ' ', '|']

def witBsC10 : List Chars :=
  [[' ', 'O', 't', 'h', 'e', 'r', ' '], [' ', 'X', ' '],
   [' '] ++ fieldDependsOn ++ [' '], [' ', 'S', '1', ' '], []]

theorem fix_references_frame_witness :
    ∃ cs : List Chars,
      toBlocks (fix_references_in_content witContentC10 witMapC10 witCtxC10).1
        = [] :: cs ∧
      cs.length = witBsC10.length ∧
      (∀ i, i < witBsC10.length →
        (∀ N ∈ defaultFieldNames, (marksGo N witBsC10).getD i false = false) →
        cs.getD i [] = witBsC10.getD i []) ∧
      (∀ i, i < witBsC10.length → cs.getD i [] ≠ witBsC10.getD i [] →
        0 < i ∧ ∃ N ∈ defaultFieldNames,
          nameBlk N (witBsC10.getD (i - 1) []) = true) :=
  fix_references_frame (by refine ⟨?_, ?_, ?_, ?_, ?_⟩ <;> decide)
    (by
      intro N hN
      simp only [defaultFieldNames, List.mem_cons, List.not_mem_nil, or_false] at hN
      rcases hN with h | h | h | h <;> subst h <;>
        exact ⟨by decide, by decide, by decide, by decide, by decide, by decide⟩)
    (by decide)

/-! ## Claim C7: unresolved tokens are preserved and reported -/

/-- Cell-level core: a token of a matched refs cell that is not key-shaped,
not a sentinel and not found by any lookup survives the rewrite verbatim and
is reported in the cell's unresolved output. -/
theorem replFixAcc_unresolved {m : ReferenceMapping} {ctx : RefContext}
    (hg : GoodValues m) (fn : Chars) {c t : Chars} (ht : t ∈ cellTokens c)
    (hjk : is_jira_key t = false) (hsent : isNoneSentinel t = false)
    (hconv : (convert_reference t m ctx).2 = false) :
    t ∈ cellTokens (replFixAcc fn m ctx c).1 ∧
      (fn ++ ':' :: ' ' :: t) ∈ (replFixAcc fn m ctx c).2.2 := by
  have hst : pyStrip t = t := cellTokens_stripped ht
  have hcs : isNoneSentinel (pyStrip c) = false := by
    by_contra hpos
    rw [Bool.not_eq_false] at hpos
    have hcell : cellTokens c = [pyStrip c] := by
      unfold cellTokens
      rw [splitComma_of_sentinel hpos, List.map_singleton, pyStrip_idem]
    rw [hcell, List.mem_singleton] at ht
    rw [ht, hpos] at hsent
    cases hsent
  have hfo : (convert_reference t m ctx).1 = t := by
    rw [convert_fst_of_not_conv hconv, hst]
  constructor
  · rw [replFixAcc_fst]
    have hcells : cellTokens (replFix m ctx c) =
        (cellTokens c).map fun u => (convert_reference u m ctx).1 := by
      unfold cellTokens
      rw [pyStrip_replFix hcs]
      refine splitStrip_join ?_ ?_ ?_
      · intro hnil
        exact cellTokens_ne_nil c (List.map_eq_nil_iff.mp hnil)
      · intro o ho
        obtain ⟨u, hu, rfl⟩ := List.mem_map.mp ho
        exact (convert_out_stripped_nocomma hg (cellTokens_stripped hu)
          (cellTokens_no_comma hu)).1
      · intro o ho
        obtain ⟨u, hu, rfl⟩ := List.mem_map.mp ho
        exact (convert_out_stripped_nocomma hg (cellTokens_stripped hu)
          (cellTokens_no_comma hu)).2
    rw [hcells]
    exact List.mem_map.mpr ⟨t, ht, hfo⟩
  · have hunres : (replFixAcc fn m ctx c).2.2 =
        ((cellTokens c).map fun u => (u, convert_reference u m ctx)).filterMap
          (fun p =>
            if p.2.2 then none
            else if is_jira_key p.2.1 then none
            else if isNoneSentinel p.2.1 then none
            else some (fn ++ ':' :: ' ' :: p.1)) := by
      unfold replFixAcc
      rw [if_neg (by rw [hcs]; exact Bool.noConfusion)]
    rw [hunres]
    refine List.mem_filterMap.mpr
      ⟨(t, convert_reference t m ctx), List.mem_map_of_mem _ ht, ?_⟩
    simp only [hconv, hfo, hjk, hsent, Bool.false_eq_true, if_false]

/-- The fold step of `fixRefsWith`. -/
def fixStep (m : ReferenceMapping) (ctx : RefContext)
    (st : Chars × Nat × List Chars) (fn : Chars) : Chars × Nat × List Chars :=
  let t := subFieldAcc fn (replFixAcc fn m ctx) st.1
  (t.1, st.2.1 + ((t.2.map Prod.fst).sum), st.2.2 ++ (t.2.map Prod.snd).flatten)

theorem fixStep_snd_snd (m : ReferenceMapping) (ctx : RefContext)
    (st : Chars × Nat × List Chars) (fn : Chars) :
    (fixStep m ctx st fn).2.2 =
      st.2.2 ++ ((subFieldAcc fn (replFixAcc fn m ctx) st.1).2.map Prod.snd).flatten :=
  rfl

theorem fixStep_unres_mono (m : ReferenceMapping) (ctx : RefContext) :
    ∀ (names : List Chars) (st : Chars × Nat × List Chars) {x : Chars},
      x ∈ st.2.2 → x ∈ (names.foldl (fixStep m ctx) st).2.2
  | [], _, _, hx => hx
  | fn :: rest, st, x, hx => by
    rw [List.foldl_cons]
    refine fixStep_unres_mono m ctx rest _ ?_
    rw [fixStep_snd_snd]
    exact List.mem_append_left _ hx

/-- A block can be the refs cell of a match of at most one field name. -/
theorem marks_unique {N N' : Chars} {bs : List Chars} {i : Nat}
    (h1 : (marksGo N bs).getD i false = true)
    (h2 : (marksGo N' bs).getD i false = true) : N = N' := by
  have s1 := (marksGo_true_spec N bs i h1).2.1
  have s2 := (marksGo_true_spec N' bs i h2).2.1
  unfold nameBlk at s1 s2
  rw [beq_iff_eq] at s1 s2
  rw [← s1, ← s2]

theorem mem_first_split {α : Type} [DecidableEq α] {a : α} :
    ∀ {l : List α}, a ∈ l → ∃ s t, l = s ++ a :: t ∧ a ∉ s
  | [], h => absurd h (by simp)
  | b :: l, h => by
    by_cases hb : a = b
    · exact ⟨[], l, by rw [hb]; rfl, by simp⟩
    · have hmem : a ∈ l := by
        rcases List.mem_cons.mp h with h' | h'
        · exact absurd h' hb
        · exact h'
      obtain ⟨s, t, hst, hns⟩ := mem_first_split hmem
      exact ⟨b :: s, t, by rw [hst]; rfl, by
        intro hc
        rcases List.mem_cons.mp hc with h' | h'
        · exact hb h'
        · exact hns h'⟩

theorem subFieldAcc_of_toBlocks {σ : Type} (name : Chars) (repl : Chars → Chars × σ)
    {content b0 : Chars} {bs : List Chars} (h : toBlocks content = b0 :: bs) :
    subFieldAcc name repl content =
      (fromBlocks (b0 :: (goSub name repl bs).1), (goSub name repl bs).2) := by
  unfold subFieldAcc
  rw [h]

theorem mem_filterMap_zip {σ : Type} (g : Chars → Option σ) :
    ∀ (ms : List Bool) (bs : List Chars) (i : Nat), i < bs.length →
      ms.getD i false = true → ∀ {y : σ}, g (bs.getD i []) = some y →
      y ∈ (List.zip ms bs).filterMap (fun p => if p.1 then g p.2 else none)
  | [], _, i, _, hm, _, _ => by cases hm
  | _ :: _, [], i, hi, _, _, _ => by cases hi
  | mk :: ms, b :: bs, 0, _, hm, y, hy => by
    have hmk : mk = true := hm
    rw [List.zip_cons_cons, List.filterMap_cons]
    have : (if mk then g b else none) = some y := by
      rw [hmk, if_pos rfl]
      exact hy
    rw [this]
    exact List.mem_cons_self _ _
  | mk :: ms, b :: bs, i + 1, hi, hm, y, hy => by
    rw [List.zip_cons_cons, List.filterMap_cons]
    have hrec := mem_filterMap_zip g ms bs i (Nat.lt_of_succ_lt_succ hi) hm hy
    cases hcase : (if mk then g b else none) with
    | none => exact hrec
    | some z => exact List.mem_cons_of_mem _ hrec

/-- **C7.** A reference token in a matched refs cell that is neither
JIRA-key-shaped, nor a none/empty sentinel, nor found by any lookup, is still
present verbatim among the tokens of the rewritten cell, and
`"<field>: <token>"` is reported in the unresolved list returned to the
caller. -/
theorem unresolved_preserved_and_reported {m : ReferenceMapping}
    {ctx : RefContext} (hg : GoodValues m)
    (hns : ∀ N ∈ defaultFieldNames, FieldNameOK m ctx N)
    {content b0 : Chars} {bs : List Chars} (h : toBlocks content = b0 :: bs)
    {N : Chars} (hNmem : N ∈ defaultFieldNames) {i : Nat} (hi : i < bs.length)
    (hmk : (marksGo N bs).getD i false = true)
    {t : Chars} (ht : t ∈ cellTokens (bs.getD i []))
    (hjk : is_jira_key t = false) (hsent : isNoneSentinel t = false)
    (hconv : (convert_reference t m ctx).2 = false) :
    (∃ cs, toBlocks (fix_references_in_content content m ctx).1 = b0 :: cs ∧
      t ∈ cellTokens (cs.getD i [])) ∧
    (N ++ ':' :: ' ' :: t) ∈ (fix_references_in_content content m ctx).2.2 := by
  obtain ⟨pre, post, hsplit, hnotpre⟩ := mem_first_split hNmem
  have hnspre : ∀ N' ∈ pre, FieldNameOK m ctx N' := by
    intro N' hN'
    refine hns N' ?_
    rw [hsplit]
    exact List.mem_append_left _ hN'
  have hpreany : (pre.any fun N' => (marksGo N' bs).getD i false) = false := by
    rw [List.any_eq_false]
    intro N' hN' hc
    exact hnotpre ((marks_unique hc hmk).symm ▸ hN')
  constructor
  · refine ⟨chainPass m ctx defaultFieldNames bs, ?_, ?_⟩
    · rw [fix_references_content]
      exact @foldPass_blocks m ctx hg defaultFieldNames _ _ _ h
    · rw [chainPass_getD hg defaultFieldNames hns bs i hi,
        List.any_eq_true.mpr ⟨N, hNmem, hmk⟩, if_pos rfl]
      have hpres := (replFixAcc_unresolved hg N ht hjk hsent hconv).1
      rwa [replFixAcc_fst] at hpres
  · have hb1 := @foldPass_blocks m ctx hg pre _ _ _ h
    have hc1 : (chainPass m ctx pre bs).getD i [] = bs.getD i [] := by
      rw [chainPass_getD hg pre hnspre bs i hi, hpreany, if_neg Bool.false_ne_true]
    have hm1 : marksGo N (chainPass m ctx pre bs) = marksGo N bs :=
      chainPass_marks hg (hns N hNmem) pre bs
    have hout2 : (replFixAcc N m ctx (bs.getD i [])).2 ∈
        (subFieldAcc N (replFixAcc N m ctx)
          (pre.foldl (fun c fn => (subFieldAcc fn (replFixAcc fn m ctx) c).1)
            content)).2 := by
      rw [subFieldAcc_of_toBlocks N (replFixAcc N m ctx) hb1]
      show (replFixAcc N m ctx (bs.getD i [])).2 ∈
        (goSub N (replFixAcc N m ctx) (chainPass m ctx pre bs)).2
      rw [goSub_snd_eq_mask]
      refine mem_filterMap_zip (fun b => some (replFixAcc N m ctx b).2) _ _ i ?_ ?_ ?_
      · rw [chainPass_length]
        exact hi
      · rw [hm1]
        exact hmk
      · rw [hc1]
    have hrep := (replFixAcc_unresolved hg N ht hjk hsent hconv).2
    have heq : fix_references_in_content content m ctx
        = defaultFieldNames.foldl (fixStep m ctx) (content, 0, []) := rfl
    rw [heq, hsplit, List.foldl_append, List.foldl_cons]
    refine fixStep_unres_mono m ctx post _ ?_
    rw [fixStep_snd_snd]
    refine List.mem_append_right _ ?_
    rw [List.mem_flatten]
    refine ⟨(replFixAcc N m ctx (bs.getD i [])).2.2, ?_, hrep⟩
    refine List.mem_map_of_mem Prod.snd ?_
    have hS1 : (pre.foldl (fixStep m ctx) (content, 0, ([] : List Chars))).1 =
        pre.foldl (fun c fn => (subFieldAcc fn (replFixAcc fn m ctx) c).1) content :=
      fixRefsWith_fst m ctx pre content 0 []
    rw [hS1]
    exact hout2

def witMapC7 : ReferenceMapping := ⟨[], [], [], [], []⟩

def witCtxC7 : RefContext := ⟨none, none⟩

/-- `"| Depends On | S9 |"`. -/
def witContentC7 : Chars :=
  ['|', ' '] ++ fieldDependsOn ++ [' ', '|', ' ', 'S', '9', ' ', '|']

def witBsC7 : List Chars :=
  [[' '] ++ fieldDependsOn ++ [' '], [' ', 'S', '9', ' '], []]

theorem unresolved_preserved_and_reported_witness :
    (∃ cs, toBlocks (fix_references_in_content witContentC7 witMapC7 witCtxC7).1
        = [] :: cs ∧ ['S', '9'] ∈ cellTokens (cs.getD 1 [])) ∧
    (fieldDependsOn ++ ':' :: ' ' :: ['S', '9'])
      ∈ (fix_references_in_content witContentC7 witMapC7 witCtxC7).2.2 :=
  unresolved_preserved_and_reported
    (by refine ⟨?_, ?_, ?_, ?_, ?_⟩ <;> decide)
    (by
      intro N hN
      simp only [defaultFieldNames, List.mem_cons, List.not_mem_nil, or_false] at hN
      rcases hN with h | h | h | h <;> subst h <;>
        exact ⟨by decide, by decide, by decide, by decide, by decide, by decide⟩)
    (show toBlocks witContentC7 = [] :: witBsC7 by decide)
    (show fieldDependsOn ∈ defaultFieldNames by decide)
    (show 1 < witBsC7.length by decide)
    (by decide) (by decide) (by decide) (by decide) (by decide)

/-! ## Claim C8: sentinel-valued reference fields -/

theorem maskBlocks_id {f : Chars → Chars} {ms : List Bool} {bs : List Chars}
    (hlen : ms.length = bs.length)
    (h : ∀ i, i < bs.length → ms.getD i false = true →
      f (bs.getD i []) = bs.getD i []) :
    maskBlocks f ms bs = bs := by
  induction bs generalizing ms with
  | nil => cases ms <;> rfl
  | cons b bs ih =>
    cases ms with
    | nil => cases hlen
    | cons mk ms' =>
      show (if mk then f b else b) :: maskBlocks f ms' bs = b :: bs
      have hhead : (if mk then f b else b) = b := by
        by_cases hmk : mk = true
        · rw [if_pos hmk]
          exact h 0 (by simp) hmk
        · rw [if_neg hmk]
      rw [hhead, ih (by simpa using hlen) (fun i hi hm => h (i + 1) (by simpa) hm)]

/-- One field pass is a complete no-op when every cell it matches is
sentinel-valued: the content is byte-for-byte unchanged and every match's
bookkeeping is `(0, [])`. -/
theorem subFieldAcc_sentinel_noop {m : ReferenceMapping} {ctx : RefContext}
    (fn : Chars) {content b0 : Chars} {bs : List Chars}
    (h : toBlocks content = b0 :: bs)
    (hs : ∀ i, i < bs.length → (marksGo fn bs).getD i false = true →
      isNoneSentinel (pyStrip (bs.getD i [])) = true) :
    (subFieldAcc fn (replFixAcc fn m ctx) content).1 = content ∧
    ∀ p ∈ (subFieldAcc fn (replFixAcc fn m ctx) content).2,
      p = ((0 : Nat), ([] : List Chars)) := by
  rw [subFieldAcc_of_toBlocks fn _ h]
  constructor
  · show fromBlocks (b0 :: (goSub fn (replFixAcc fn m ctx) bs).1) = content
    rw [goSub_fst_eq_mask]
    have hmask : maskBlocks (fun b => (replFixAcc fn m ctx b).1) (marksGo fn bs) bs
        = bs := by
      refine maskBlocks_id (marksGo_length fn bs) ?_
      intro i hi hm
      rw [replFixAcc_fst]
      unfold replFix
      rw [if_pos (hs i hi hm)]
    have hz : List.zipWith
        (fun mk b => if mk then (replFixAcc fn m ctx b).1 else b)
        (marksGo fn bs) bs = bs := hmask
    rw [hz, ← h, fromBlocks_toBlocks]
  · show ∀ p ∈ (goSub fn (replFixAcc fn m ctx) bs).2,
      p = ((0 : Nat), ([] : List Chars))
    rw [goSub_snd_eq_mask]
    intro p hp
    obtain ⟨q, hmem, hsome⟩ := List.mem_filterMap.mp hp
    obtain ⟨i, hilen, hget⟩ := List.mem_iff_getElem.mp hmem
    rw [List.getElem_zip] at hget
    have hibs : i < bs.length := by
      rw [List.length_zip, marksGo_length] at hilen
      exact Nat.lt_of_lt_of_le hilen (Nat.min_le_left _ _)
    have him : i < (marksGo fn bs).length := by
      rw [marksGo_length]
      exact hibs
    by_cases hmk : q.1 = true
    · rw [if_pos hmk] at hsome
      have hq2 : q.2 = bs.getD i [] := by
        rw [List.getD_eq_getElem _ _ hibs]
        rw [← hget]
      have hmarked : (marksGo fn bs).getD i false = true := by
        rw [List.getD_eq_getElem _ _ him]
        have : (marksGo fn bs)[i] = q.1 := by rw [← hget]
        rw [this, hmk]
      have hsent := hs i hibs hmarked
      have : (replFixAcc fn m ctx q.2).2 = p := Option.some.inj hsome
      rw [← this, hq2]
      unfold replFixAcc
      rw [if_pos hsent]
    · rw [if_neg hmk] at hsome
      cases hsome

theorem zero_nil_outputs {l : List (Nat × List Chars)}
    (h : ∀ p ∈ l, p = ((0 : Nat), ([] : List Chars))) :
    (l.map Prod.fst).sum = 0 ∧ (l.map Prod.snd).flatten = [] := by
  induction l with
  | nil => exact ⟨rfl, rfl⟩
  | cons p l ih =>
    obtain ⟨h1, h2⟩ := ih (fun q hq => h q (by simp [hq]))
    have hp := h p (by simp)
    rw [hp]
    constructor
    · simp [h1]
    · simp [h2]

theorem fixRefs_sentinel_noop_fold {m : ReferenceMapping} {ctx : RefContext} :
    ∀ (names : List Chars) {content b0 : Chars} {bs : List Chars},
      toBlocks content = b0 :: bs →
      (∀ N ∈ names, ∀ i, i < bs.length → (marksGo N bs).getD i false = true →
        isNoneSentinel (pyStrip (bs.getD i [])) = true) →
      ∀ (n : Nat) (u : List Chars),
        names.foldl (fixStep m ctx) (content, n, u) = (content, n, u)
  | [], _, _, _, _, _, _, _ => rfl
  | fn :: rest, content, b0, bs, h, hs, n, u => by
    rw [List.foldl_cons]
    have hpass := @subFieldAcc_sentinel_noop m ctx fn content b0 bs h (hs fn (by simp))
    obtain ⟨hsum, hflat⟩ := zero_nil_outputs hpass.2
    have hstep : fixStep m ctx (content, n, u) fn = (content, n, u) := by
      show ((subFieldAcc fn (replFixAcc fn m ctx) content).1,
        n + (((subFieldAcc fn (replFixAcc fn m ctx) content).2.map Prod.fst).sum),
        u ++ ((subFieldAcc fn (replFixAcc fn m ctx) content).2.map Prod.snd).flatten)
        = (content, n, u)
      rw [hpass.1, hsum, hflat, List.append_nil, Nat.add_zero]
    rw [hstep]
    exact fixRefs_sentinel_noop_fold rest h (fun N hN => hs N (by simp [hN])) n u

/-- **C8 (amended).** In `fix_references_in_content` a sentinel-valued
reference field (empty, `-`, `none`, `n/a` after stripping) is passed through
byte-for-byte and never reported: when every matched cell is sentinel-valued,
the whole call returns the content unchanged, zero fixes and an empty
unresolved list.  (`convert_story_refs` of the conversion script does NOT
have this property: it re-normalizes the whitespace of a sentinel cell; see
the counterexample.) -/
theorem fix_references_sentinel_noop {m : ReferenceMapping} {ctx : RefContext}
    {content b0 : Chars} {bs : List Chars} (h : toBlocks content = b0 :: bs)
    (hs : ∀ N ∈ defaultFieldNames, ∀ i, i < bs.length →
      (marksGo N bs).getD i false = true →
      isNoneSentinel (pyStrip (bs.getD i [])) = true) :
    fix_references_in_content content m ctx = (content, 0, []) := by
  have heq : fix_references_in_content content m ctx
      = defaultFieldNames.foldl (fixStep m ctx) (content, 0, []) := rfl
  rw [heq]
  exact fixRefs_sentinel_noop_fold defaultFieldNames h hs 0 []

/-- `"| Depends On | -  |"`. -/
def cexContentC8 : Chars :=
  ['|', ' '] ++ fieldDependsOn ++ [' ', '|', ' ', '-', ' ', ' ', '|']

/-- The claim is false for `convert_story_refs`: it has no sentinel check, so
a `-`-valued cell is re-joined with normalized whitespace and the document
changes. -/
theorem convert_story_refs_sentinel_changed :
    convert_story_refs cexContentC8 [] ≠ cexContentC8 := by
  decide

def witMapC8 : ReferenceMapping :=
  ⟨[], [(['S', '1'], ['A', 'R', 'G', 'U', 'S', '-', '1'])], [], [], []⟩

def witCtxC8 : RefContext := ⟨none, none⟩

/-- `"| Depends On | n/a |"`. -/
def witContentC8 : Chars :=
  ['|', ' '] ++ fieldDependsOn ++ [' ', '|', ' ', 'n', '/', 'a', ' ', '|']

def witBsC8 : List Chars :=
  [[' '] ++ fieldDependsOn ++ [' '], [' ', 'n', '/', 'a', ' '], []]

theorem fix_references_sentinel_noop_witness :
    fix_references_in_content witContentC8 witMapC8 witCtxC8
      = (witContentC8, 0, []) :=
  fix_references_sentinel_noop
    (show toBlocks witContentC8 = [[]] ++ witBsC8 from by decide)
    (by decide)

/-! ## Claim C9: `update_jira_key_in_file` on documents without a key row -/

theorem goKey_id_of_no_row (key : Chars) :
    ∀ bs : List Chars, hasJiraKeyRow.hasRowAux bs = false → goKey key bs = bs
  | [], _ => rfl
  | [_], _ => rfl
  | [b, c], _ => by
    rw [goKey, if_neg (by simp)]
    rfl
  | b :: c :: d :: rest, h => by
    have hor : (nameBlk fieldJiraKey b ||
        hasJiraKeyRow.hasRowAux (c :: d :: rest)) = false := h
    rw [Bool.or_eq_false_iff] at hor
    rw [goKey, if_neg (by rw [hor.1]; simp),
      goKey_id_of_no_row key (c :: d :: rest) hor.2]

theorem subKeyRow_id_of_no_row (key : Chars) {content : Chars}
    (h : hasJiraKeyRow content = false) : subKeyRow key content = content := by
  cases hT : toBlocks content with
  | nil => exact absurd hT (toBlocks_ne_nil content)
  | cons b0 bs =>
    have hsub : subKeyRow key content = fromBlocks (b0 :: goKey key bs) := by
      unfold subKeyRow
      rw [hT]
    have hb : hasJiraKeyRow.hasRowAux bs = false := by
      unfold hasJiraKeyRow at h
      rw [hT] at h
      exact h
    rw [hsub, goKey_id_of_no_row key bs hb, ← hT, fromBlocks_toBlocks]

/-- **C9.** The returned flag is true exactly when the substitution changed
the content, and a document with no `| JIRA Key | ... |` row is returned
byte-for-byte unchanged with the flag `false` (so a freshly minted key is
silently not persisted into such a document). -/
theorem update_jira_key_in_file_no_row (key : Chars) {content : Chars}
    (h : hasJiraKeyRow content = false) :
    (∀ c k : Chars, ((update_jira_key_in_file c k).2 = true ↔
      (update_jira_key_in_file c k).1 ≠ c)) ∧
    update_jira_key_in_file content key = (content, false) := by
  constructor
  · intro c k
    unfold update_jira_key_in_file
    exact decide_eq_true_iff
  · unfold update_jira_key_in_file
    rw [subKeyRow_id_of_no_row key h]
    simp

/-- `"| Title | X |"`. -/
def witContentC9 : Chars :=
  ['|', ' ', 'T', 'i', 't', 'l', 'e', ' ', '|', ' ', 'X', ' ', '|']

theorem update_jira_key_in_file_no_row_witness :
    (∀ c k : Chars, ((update_jira_key_in_file c k).2 = true ↔
      (update_jira_key_in_file c k).1 ≠ c)) ∧
    update_jira_key_in_file witContentC9 ['A', 'R', 'G', 'U', 'S', '-', '1']
      = (witContentC9, false) :=
  update_jira_key_in_file_no_row ['A', 'R', 'G', 'U', 'S', '-', '1'] (by decide)

/-! ## Claim C1: scope of the story map of `convert-all-refs-to-jira-keys.py` -/

/-- Two epics, each with a story numbered `1`, with distinct remote keys.
Walk order lists epic A first. -/
def docsC1 : List StoryScan :=
  [⟨['E', 'P', 'I', 'C', '-', 'A'], ['1'],
    some ['A', 'R', 'G', 'U', 'S', '-', '1', '0', '0']⟩,
   ⟨['E', 'P', 'I', 'C', '-', 'B'], ['1'],
    some ['A', 'R', 'G', 'U', 'S', '-', '2', '0', '0']⟩]

/-- `"| Depends On | S1 |"` — a within-scope story reference as it occurs in
epic A's documents. -/
def refRowC1 : Chars :=
  ['|', ' '] ++ fieldDependsOn ++ [' ', '|', ' ', 'S', '1', ' ', '|']

/-- **C1 (code bug).** `build_story_jira_map` keys the map by the bare story
number alone, so the reference `S1` — wherever it occurs, in particular in
epic A's own documents — resolves to epic B's story key `ARGUS-200`, not to
epic A's `ARGUS-100`: the lookup is global, and the two keys are distinct.
(`convert_story_refs` receives no scope argument at all, so the same rewrite
is applied to every document.) -/
theorem convert_story_refs_cross_scope :
    convert_story_refs refRowC1 (build_story_jira_map docsC1)
      = ['|', ' '] ++ fieldDependsOn ++
          [' ', '|', ' ', 'A', 'R', 'G', 'U', 'S', '-', '2', '0', '0', ' ', '|'] ∧
    (['A', 'R', 'G', 'U', 'S', '-', '2', '0', '0'] : Chars)
      ≠ ['A', 'R', 'G', 'U', 'S', '-', '1', '0', '0'] := by
  decide

/-! ## Claim C5: retry bounds of `JiraClient._request`
(`jira-sync-comprehensive.py`, lines 141-185) -/

def MAX_RETRIES : Nat := 3

/-- What one network attempt yields: a `requests` timeout exception, or a
response with a status code. -/
inductive RespEvent where
  | timeout
  | status (code : Nat)
deriving DecidableEq

/-- How `_request` returns to its caller. -/
inductive ReqResult where
  | ok (code : Nat)
  | apiError (code : Nat)
  | timeoutRaised
deriving DecidableEq

/-- `_request`, driven by an oracle giving the outcome of each successive
network attempt, with explicit fuel: `none` means the call is still running
after `fuel` attempts.  Mirrors lines 158-184: a 429 sleeps and recurses with
`retries` UNCHANGED; a 5xx with `retries < MAX_RETRIES` recurses with
`retries + 1`; 204 and 2xx/3xx return; other codes raise the API-error
exception; a timeout with `retries < MAX_RETRIES` recurses with
`retries + 1`, else re-raises. -/
def requestFuel (oracle : Nat → RespEvent) : Nat → Nat → Nat → Option ReqResult
  | _, _, 0 => none
  | attempt, retries, fuel + 1 =>
    match oracle attempt with
    | RespEvent.timeout =>
      if retries < MAX_RETRIES then
        requestFuel oracle (attempt + 1) (retries + 1) fuel
      else some ReqResult.timeoutRaised
    | RespEvent.status code =>
      if code = 429 then requestFuel oracle (attempt + 1) retries fuel
      else if 500 ≤ code ∧ retries < MAX_RETRIES then
        requestFuel oracle (attempt + 1) (retries + 1) fuel
      else if code = 204 then some (ReqResult.ok 204)
      else if 200 ≤ code ∧ code < 400 then some (ReqResult.ok code)
      else some (ReqResult.apiError code)

/-- An endpoint that answers 429 to every attempt. -/
def always429 : Nat → RespEvent := fun _ => RespEvent.status 429

/-- The literal claim is false: rate-limit responses recurse with `retries`
unchanged, so after `MAX_RETRIES + 7` attempts against an always-429 endpoint
the call is still running — no bound of `MAX_RETRIES` applies to the 429
class. -/
theorem request_429_unbounded :
    requestFuel always429 0 0 (MAX_RETRIES + 7) = none := by
  decide

/-- In fact an always-429 endpoint makes `_request` run forever: no amount of
fuel completes the call. -/
theorem request_429_never_returns :
    ∀ (fuel attempt retries : Nat), requestFuel always429 attempt retries fuel = none
  | 0, _, _ => rfl
  | fuel + 1, attempt, retries => by
    show requestFuel always429 (attempt + 1) retries fuel = none
    exact request_429_never_returns fuel (attempt + 1) retries

/-- **C5 (amended).** Any call that never receives a 429 terminates, and its
5xx/timeout retries are bounded: starting from retry counter `retries`, at
most `MAX_RETRIES - retries` further retries happen, so
`MAX_RETRIES - retries + 1` attempts of fuel always produce an answer.  (The
429 class, contrary to the claim, is retried without bound; see
`request_429_unbounded`.) -/
theorem request_terminates_no_429 {oracle : Nat → RespEvent}
    (h : ∀ n, oracle n ≠ RespEvent.status 429) :
    ∀ (fuel attempt retries : Nat), MAX_RETRIES - retries < fuel →
      requestFuel oracle attempt retries fuel ≠ none
  | 0, _, retries, hf => absurd hf (Nat.not_lt_zero _)
  | fuel + 1, attempt, retries, hf => by
    have harith : retries < MAX_RETRIES → MAX_RETRIES - (retries + 1) < fuel := by
      intro hr
      omega
    rw [requestFuel]
    cases hor : oracle attempt with
    | timeout =>
      show (if retries < MAX_RETRIES then
          requestFuel oracle (attempt + 1) (retries + 1) fuel
        else some ReqResult.timeoutRaised) ≠ none
      by_cases hr : retries < MAX_RETRIES
      · rw [if_pos hr]
        exact request_terminates_no_429 h fuel (attempt + 1) (retries + 1) (harith hr)
      · rw [if_neg hr]
        exact Option.noConfusion
    | status code =>
      show (if code = 429 then requestFuel oracle (attempt + 1) retries fuel
        else if 500 ≤ code ∧ retries < MAX_RETRIES then
          requestFuel oracle (attempt + 1) (retries + 1) fuel
        else if code = 204 then some (ReqResult.ok 204)
        else if 200 ≤ code ∧ code < 400 then some (ReqResult.ok code)
        else some (ReqResult.apiError code)) ≠ none
      have hc429 : ¬(code = 429) := by
        intro hc
        exact h attempt (by rw [hor, hc])
      rw [if_neg hc429]
      by_cases h5 : 500 ≤ code ∧ retries < MAX_RETRIES
      · rw [if_pos h5]
        exact request_terminates_no_429 h fuel (attempt + 1) (retries + 1)
          (harith h5.2)
      · rw [if_neg h5]
        by_cases h204 : code = 204
        · rw [if_pos h204]
          exact Option.noConfusion
        · rw [if_neg h204]
          by_cases hok : 200 ≤ code ∧ code < 400
          · rw [if_pos hok]
            exact Option.noConfusion
          · rw [if_neg hok]
            exact Option.noConfusion

/-- An endpoint that answers 500 to every attempt. -/
def always500 : Nat → RespEvent := fun _ => RespEvent.status 500

theorem request_terminates_no_429_witness :
    MAX_RETRIES - 0 < 4 ∧ requestFuel always500 0 0 4 ≠ none :=
  ⟨by decide,
    request_terminates_no_429
      (fun n hc => absurd (RespEvent.status.inj hc) (by decide)) 4 0 0 (by decide)⟩

/-! ## Claim C6: create-or-skip link creation
(`jira-post-import-fix.py`, lines 149-177 and 513-560)

The remote interactions are abstracted by their outcomes: `fetch` is what the
GET of the source issue's links does (`.error` = the request raised), `post`
is what the POST of the new link does. -/

/-- `get_existing_links`: any exception yields the empty set. -/
def get_existing_links (fetch : Except Unit (List Chars)) : List Chars :=
  match fetch with
  | Except.ok l => l
  | Except.error _ => []

/-- `create_link`: `True` on success, any exception is swallowed into
`False`; it never propagates an exception (its type is `Bool`, not
`Except`). -/
def create_link (post : Except Unit Unit) : Bool :=
  match post with
  | Except.ok _ => true
  | Except.error _ => false

/-- The per-reference body of `create_missing_links`:
`if is_jira_key(ref) and ref not in existing: client.create_link(...)`.
Returns (whether a create call was issued, whether a link was reported
created). -/
def linkAttempt (ref : Chars) (fetch : Except Unit (List Chars))
    (post : Except Unit Unit) : Bool × Bool :=
  let existing := get_existing_links fetch
  if is_jira_key ref && !(decide (ref ∈ existing)) then (true, create_link post)
  else (false, false)

/-- **C6.** A create call is issued exactly for key-shaped references absent
from the fetched link set; the reported result is `true` exactly when a
create call was issued and the POST succeeded; a reference already among the
existing links is skipped outright; and a failed POST is reported as `false`
— never as an exception. -/
theorem create_link_create_or_skip (ref : Chars) (fetch : Except Unit (List Chars))
    (post : Except Unit Unit) :
    ((linkAttempt ref fetch post).1 = true ↔
      (is_jira_key ref = true ∧ ref ∉ get_existing_links fetch)) ∧
    ((linkAttempt ref fetch post).2 = true ↔
      ((linkAttempt ref fetch post).1 = true ∧ post = Except.ok ())) ∧
    (ref ∈ get_existing_links fetch → linkAttempt ref fetch post = (false, false)) := by
  have hcl : (create_link post = true) ↔ post = Except.ok () := by
    cases post with
    | ok u => cases u; simp [create_link]
    | error e => simp [create_link]
  unfold linkAttempt
  by_cases hc : (is_jira_key ref &&
      !(decide (ref ∈ get_existing_links fetch))) = true
  · rw [if_pos hc]
    rw [Bool.and_eq_true, Bool.not_eq_true', decide_eq_false_iff_not] at hc
    refine ⟨by simp [hc.1, hc.2], ?_, ?_⟩
    · show create_link post = true ↔ (true = true ∧ post = Except.ok ())
      rw [hcl]
      simp
    · intro hmem
      exact absurd hmem hc.2
  · rw [if_neg hc]
    rw [Bool.and_eq_true, Bool.not_eq_true', decide_eq_false_iff_not] at hc
    refine ⟨?_, ?_, fun _ => rfl⟩
    · constructor
      · intro hfalse
        exact absurd hfalse (by decide)
      · intro hand
        exact absurd ⟨hand.1, hand.2⟩ hc
    · constructor
      · intro hfalse
        exact absurd hfalse (by decide)
      · intro hand
        exact absurd hand.1 (by decide)

theorem create_link_create_or_skip_witness :
    ((linkAttempt ['A', 'R', 'G', 'U', 'S', '-', '2']
        (Except.ok [['A', 'R', 'G', 'U', 'S', '-', '2']]) (Except.error ())).1 = true ↔
      (is_jira_key ['A', 'R', 'G', 'U', 'S', '-', '2'] = true ∧
        ['A', 'R', 'G', 'U', 'S', '-', '2'] ∉
          get_existing_links (Except.ok [['A', 'R', 'G', 'U', 'S', '-', '2']]))) ∧
    ((linkAttempt ['A', 'R', 'G', 'U', 'S', '-', '2']
        (Except.ok [['A', 'R', 'G', 'U', 'S', '-', '2']]) (Except.error ())).2 = true ↔
      ((linkAttempt ['A', 'R', 'G', 'U', 'S', '-', '2']
          (Except.ok [['A', 'R', 'G', 'U', 'S', '-', '2']]) (Except.error ())).1 = true ∧
        (Except.error () : Except Unit Unit) = Except.ok ())) ∧
    (['A', 'R', 'G', 'U', 'S', '-', '2'] ∈
        get_existing_links (Except.ok [['A', 'R', 'G', 'U', 'S', '-', '2']]) →
      linkAttempt ['A', 'R', 'G', 'U', 'S', '-', '2']
          (Except.ok [['A', 'R', 'G', 'U', 'S', '-', '2']]) (Except.error ())
        = (false, false)) :=
  create_link_create_or_skip ['A', 'R', 'G', 'U', 'S', '-', '2']
    (Except.ok [['A', 'R', 'G', 'U', 'S', '-', '2']]) (Except.error ())

/-! ## Claim C2: at-most-one creation across runs
(`jira-bulk-sync.py` `sync_epic`, lines 356-440;
`jira-sync-comprehensive.py` `sync_to_jira`, lines 602-649) -/

structure RIssue where
  key : Chars
  summary : Chars
  kind : Chars
deriving DecidableEq

def prefAt : Chars → Chars → Bool
  | [], _ => true
  | _ :: _, [] => false
  | p :: ps, s :: ss => p == s && prefAt ps ss

/-- Substring containment, the model of JQL `summary ~ "pat"`. -/
def hasSub (pat : Chars) : Chars → Bool
  | [] => prefAt pat []
  | s :: ss => prefAt pat (s :: ss) || hasSub pat ss

/-- `_search_issue(summary_pat, kind)`: the first issue whose summary
contains the pattern and whose type matches. -/
def searchIssue (pat kind : Chars) (store : List RIssue) : Option RIssue :=
  store.find? fun iss => hasSub pat iss.summary && iss.kind == kind

/-- The per-entity check-then-create pattern of `sync_epic` (applied to the
epic itself and to each story): search for `"{id}:"`; on a hit return the
found issue's key and leave the store alone; otherwise create an issue whose
summary is `"{id}: {title}"` with a fresh key. -/
def ensureIssue (store : List RIssue) (id title kind newKey : Chars) :
    Chars × List RIssue :=
  match searchIssue (id ++ [':']) kind store with
  | some iss => (iss.key, store)
  | none => (newKey, store ++ [⟨newKey, id ++ ':' :: ' ' :: title, kind⟩])

theorem prefAt_self_append : ∀ (pat rest : Chars), prefAt pat (pat ++ rest) = true
  | [], _ => rfl
  | p :: ps, rest => by
    show (p == p && prefAt ps (ps ++ rest)) = true
    rw [prefAt_self_append ps rest, beq_self_eq_true]
    rfl

theorem hasSub_of_pre : ∀ (pat rest : Chars), hasSub pat (pat ++ rest) = true := by
  intro pat rest
  cases hp : pat ++ rest with
  | nil =>
    have : pat = [] := by
      cases pat with
      | nil => rfl
      | cons a l => cases hp
    rw [this] at hp ⊢
    show prefAt [] rest = true
    rfl
  | cons s ss =>
    show (prefAt pat (s :: ss) || hasSub pat ss) = true
    rw [← hp, prefAt_self_append]
    rfl

theorem find?_append_none {α : Type} {p : α → Bool} {l1 : List α}
    (h : List.find? p l1 = none) (l2 : List α) :
    List.find? p (l1 ++ l2) = List.find? p l2 := by
  induction l1 with
  | nil => rfl
  | cons a l ih =>
    rw [List.find?_cons] at h
    rw [List.cons_append, List.find?_cons]
    cases hpa : p a with
    | true =>
      rw [hpa] at h
      exact Option.noConfusion h
    | false =>
      rw [hpa] at h
      exact ih h

/-- **C2 (amended).** The check-then-create of `jira-bulk-sync.py` is
idempotent: re-running it for the same entity against the store left by the
first run finds the issue the first run found or created, returns the same
key, and creates nothing new — so at most one issue is ever created for an
entity by repeated runs.  (`jira-sync-comprehensive.py`'s `sync_to_jira`
without `--resume` does NOT have this property; see the counterexample.) -/
theorem ensureIssue_idempotent (store : List RIssue) (id title title2 kind k1 k2 : Chars) :
    ensureIssue (ensureIssue store id title kind k1).2 id title2 kind k2
      = ((ensureIssue store id title kind k1).1, (ensureIssue store id title kind k1).2) := by
  unfold ensureIssue
  cases hs : searchIssue (id ++ [':']) kind store with
  | some iss =>
    show (match searchIssue (id ++ [':']) kind store with
      | some iss2 => (iss2.key, store)
      | none => (k2, store ++ [⟨k2, id ++ ':' :: ' ' :: title2, kind⟩])) = (iss.key, store)
    rw [hs]
  | none =>
    have hnew : searchIssue (id ++ [':']) kind
        (store ++ [⟨k1, id ++ ':' :: ' ' :: title, kind⟩])
        = some ⟨k1, id ++ ':' :: ' ' :: title, kind⟩ := by
      unfold searchIssue at hs ⊢
      rw [find?_append_none hs, List.find?_cons]
      have hcond : (hasSub (id ++ [':'])
          (⟨k1, id ++ ':' :: ' ' :: title, kind⟩ : RIssue).summary &&
          (⟨k1, id ++ ':' :: ' ' :: title, kind⟩ : RIssue).kind == kind) = true := by
        show (hasSub (id ++ [':']) (id ++ ':' :: ' ' :: title) && kind == kind) = true
        have : id ++ ':' :: ' ' :: title = (id ++ [':']) ++ ' ' :: title := by
          rw [List.append_assoc]
          rfl
        rw [this, hasSub_of_pre, beq_self_eq_true]
        rfl
      rw [hcond]
    show (match searchIssue (id ++ [':']) kind
        (store ++ [⟨k1, id ++ ':' :: ' ' :: title, kind⟩]) with
      | some iss2 => (iss2.key, store ++ [⟨k1, id ++ ':' :: ' ' :: title, kind⟩])
      | none => (k2, (store ++ [⟨k1, id ++ ':' :: ' ' :: title, kind⟩]) ++ [⟨k2, id ++ ':' :: ' ' :: title2, kind⟩]))
      = (k1, store ++ [⟨k1, id ++ ':' :: ' ' :: title, kind⟩])
    rw [hnew]

/-- One entity pass of `sync_to_jira` (comprehensive script), phases 1-3
pattern: `existing_key = state_key or embedded_key;
if resume and existing_key: skip else: create`.  Returns the key associated
by this run and whether a create call was issued. -/
def syncEntityOnce (resume : Bool) (existingKey : Option Chars)
    (newKey : Chars) : Chars × Bool :=
  if resume && existingKey.isSome then (existingKey.getD [], false)
  else (newKey, true)

/-- The literal claim is false for `sync_to_jira`: without `--resume` it
never searches nor consults the saved state before creating, so a second run
issues a second create call and associates a second, different key with the
same entity. -/
theorem sync_to_jira_double_create :
    (syncEntityOnce false none ['K', '1']).2 = true ∧
    (syncEntityOnce false (some (syncEntityOnce false none ['K', '1']).1)
        ['K', '2']).2 = true ∧
    (syncEntityOnce false (some (syncEntityOnce false none ['K', '1']).1)
        ['K', '2']).1 ≠ (syncEntityOnce false none ['K', '1']).1 := by
  decide

/-! ## Claim C4: parent-before-child materialization
(`jira-sync-comprehensive.py` `sync_to_jira`, phases 1-3, lines 602-770,
fresh run: no `--resume`, no dry-run, empty starting state)

`outcome` abstracts `client.create_issue`: the key minted for an entity id,
or `none` when the call raised. -/

structure StoryDoc where
  sid : Chars
  tasks : List Chars
deriving DecidableEq

structure EpicDoc where
  eid : Chars
  stories : List StoryDoc
deriving DecidableEq

inductive SyncEvent where
  | epicCreated (id key : Chars)
  | storyCreated (id key : Chars) (epicKey : Option Chars)
  | taskCreated (id key storyId parentKey : Chars)
  | taskSkipped (storyId : Chars)
deriving DecidableEq

/-- Phase 1 events: one creation per epic whose create call succeeds. -/
def phase1Events (outcome : Chars → Option Chars) (epics : List EpicDoc) :
    List SyncEvent :=
  epics.filterMap fun e => (outcome e.eid).map fun k => SyncEvent.epicCreated e.eid k

/-- The epic-key state written by phase 1 (`state.set_epic_key`):
prepend-insert, first-hit lookup. -/
def epicKeysOf (outcome : Chars → Option Chars) (epics : List EpicDoc) :
    List (Chars × Chars) :=
  epics.foldl
    (fun mp e =>
      match outcome e.eid with
      | some k => (e.eid, k) :: mp
      | none => mp)
    []

/-- Phase 2 events: every story whose create call succeeds is created — the
enclosing epic's key is merely looked up for the epic link and recorded as it
is, present or not. -/
def phase2Events (outcome : Chars → Option Chars) (ek : List (Chars × Chars))
    (epics : List EpicDoc) : List SyncEvent :=
  epics.flatMap fun e =>
    e.stories.filterMap fun s =>
      (outcome s.sid).map fun k => SyncEvent.storyCreated s.sid k (ek.lookup e.eid)

/-- The story-key state written by phase 2. -/
def storyKeysOf (outcome : Chars → Option Chars) (epics : List EpicDoc) :
    List (Chars × Chars) :=
  (epics.flatMap fun e => e.stories).foldl
    (fun mp s =>
      match outcome s.sid with
      | some k => (s.sid, k) :: mp
      | none => mp)
    []

/-- Phase 3 events: a story without a key skips all its tasks
(`if not story_jira_key: continue`); otherwise each successful task creation
carries the story's key as `parent_key`. -/
def phase3Events (outcome : Chars → Option Chars) (sk : List (Chars × Chars))
    (epics : List EpicDoc) : List SyncEvent :=
  epics.flatMap fun e =>
    e.stories.flatMap fun s =>
      match sk.lookup s.sid with
      | none => [SyncEvent.taskSkipped s.sid]
      | some pk =>
        s.tasks.filterMap fun t =>
          (outcome t).map fun k => SyncEvent.taskCreated t k s.sid pk

/-- The event trace of one fresh `sync_to_jira` run, phases in order. -/
def sync_to_jira (outcome : Chars → Option Chars) (epics : List EpicDoc) :
    List SyncEvent :=
  phase1Events outcome epics ++
    phase2Events outcome (epicKeysOf outcome epics) epics ++
    phase3Events outcome (storyKeysOf outcome epics) epics

theorem mem_storyKeyFold (outcome : Chars → Option Chars) :
    ∀ (l : List StoryDoc) (init : List (Chars × Chars)) (p : Chars × Chars),
      p ∈ l.foldl
        (fun mp s =>
          match outcome s.sid with
          | some k => (s.sid, k) :: mp
          | none => mp) init →
      p ∈ init ∨ ∃ s ∈ l, s.sid = p.1 ∧ outcome s.sid = some p.2
  | [], _, p, hp => Or.inl hp
  | a :: l, init, p, hp => by
    rw [List.foldl_cons] at hp
    cases hg : outcome a.sid with
    | none =>
      rw [hg] at hp
      rcases mem_storyKeyFold outcome l init p hp with h | ⟨b, hb, hk, hgb⟩
      · exact Or.inl h
      · exact Or.inr ⟨b, by simp [hb], hk, hgb⟩
    | some k =>
      rw [hg] at hp
      rcases mem_storyKeyFold outcome l ((a.sid, k) :: init) p hp
        with h | ⟨b, hb, hk, hgb⟩
      · rcases List.mem_cons.mp h with h' | h'
        · refine Or.inr ⟨a, by simp, ?_, ?_⟩
          · rw [h']
          · rw [hg, h']
        · exact Or.inl h'
      · exact Or.inr ⟨b, by simp [hb], hk, hgb⟩

/-- The literal claim is false for stories: when the epic's creation fails
(`outcome "E1" = none`) the story is still created, with no epic key in
sight. -/
def epicsC4 : List EpicDoc := [⟨['E', '1'], [⟨['S', '1'], [['T', '1']]⟩]⟩]

def outcomeC4 : Chars → Option Chars := fun id =>
  if id = ['S', '1'] then some ['K', 'S']
  else if id = ['T', '1'] then some ['K', 'T']
  else none

theorem story_created_without_epic_key :
    SyncEvent.storyCreated ['S', '1'] ['K', 'S'] none
      ∈ sync_to_jira outcomeC4 epicsC4 ∧
    outcomeC4 ['E', '1'] = none := by
  decide

/-- **C4 (amended).** The task half of the claim holds: every task-creation
event of a run carries a parent key that phase 2 recorded for the task's
story, i.e. the key of an earlier story-creation event of the same run — and
the trace is the phase-1, phase-2, phase-3 concatenation in that order, so
the story's creation precedes the task's.  (The story half is false: a story
is created even when its epic's creation failed; see the counterexample.) -/
theorem task_parent_key_exists (outcome : Chars → Option Chars)
    (epics : List EpicDoc) {t k sid pk : Chars}
    (h : SyncEvent.taskCreated t k sid pk ∈
      phase3Events outcome (storyKeysOf outcome epics) epics) :
    (storyKeysOf outcome epics).lookup sid = some pk ∧
    (∃ ek, SyncEvent.storyCreated sid pk ek ∈
      phase2Events outcome (epicKeysOf outcome epics) epics) ∧
    sync_to_jira outcome epics =
      phase1Events outcome epics ++
        phase2Events outcome (epicKeysOf outcome epics) epics ++
        phase3Events outcome (storyKeysOf outcome epics) epics := by
  obtain ⟨e, he, hin⟩ := List.mem_flatMap.mp h
  obtain ⟨s, hs, hin2⟩ := List.mem_flatMap.mp hin
  cases hlk : (storyKeysOf outcome epics).lookup s.sid with
  | none =>
    rw [hlk] at hin2
    rw [List.mem_singleton] at hin2
    exact SyncEvent.noConfusion hin2
  | some pk' =>
    rw [hlk] at hin2
    obtain ⟨tid, htid, hev⟩ := List.mem_filterMap.mp hin2
    cases hout : outcome tid with
    | none =>
      rw [hout] at hev
      exact Option.noConfusion hev
    | some kk =>
      rw [hout] at hev
      have hev' := Option.some.inj hev
      have hsid : s.sid = sid := by
        have := congrArg (fun ev => match ev with
          | SyncEvent.taskCreated _ _ x _ => x
          | _ => []) hev'
        exact this
      have hpk : pk' = pk := by
        have := congrArg (fun ev => match ev with
          | SyncEvent.taskCreated _ _ _ x => x
          | _ => []) hev'
        exact this
      have hlk2 : (storyKeysOf outcome epics).lookup sid = some pk := by
        rw [← hsid, hlk, hpk]
      have hmem : (sid, pk) ∈ storyKeysOf outcome epics := lookup_mem hlk2
      refine ⟨hlk2, ?_, rfl⟩
      -- the recorded pair comes from a successful story creation
      rcases mem_storyKeyFold outcome
          (epics.flatMap fun e => e.stories) [] (sid, pk) hmem with h0 | ⟨st, hst, hks, hgs⟩
      · cases h0
      · obtain ⟨e2, he2, hse2⟩ := List.mem_flatMap.mp hst
        refine ⟨(epicKeysOf outcome epics).lookup e2.eid, ?_⟩
        rw [phase2Events, List.mem_flatMap]
        refine ⟨e2, he2, ?_⟩
        rw [List.mem_filterMap]
        refine ⟨st, hse2, ?_⟩
        have hks' : st.sid = sid := hks
        have hgs' : outcome st.sid = some pk := hgs
        rw [hks'] at hgs'
        simp [hgs', hks']

def epicsC4w : List EpicDoc := [⟨['E', '1'], [⟨['S', '1'], [['T', '1']]⟩]⟩]

def outcomeC4w : Chars → Option Chars := fun id =>
  if id = ['E', '1'] then some ['K', 'E']
  else if id = ['S', '1'] then some ['K', 'S']
  else if id = ['T', '1'] then some ['K', 'T']
  else none

theorem task_parent_key_exists_witness :
    (storyKeysOf outcomeC4w epicsC4w).lookup ['S', '1'] = some ['K', 'S'] ∧
    (∃ ek, SyncEvent.storyCreated ['S', '1'] ['K', 'S'] ek
      ∈ phase2Events outcomeC4w (epicKeysOf outcomeC4w epicsC4w) epicsC4w) ∧
    sync_to_jira outcomeC4w epicsC4w =
      phase1Events outcomeC4w epicsC4w ++
        phase2Events outcomeC4w (epicKeysOf outcomeC4w epicsC4w) epicsC4w ++
        phase3Events outcomeC4w (storyKeysOf outcomeC4w epicsC4w) epicsC4w :=
  task_parent_key_exists outcomeC4w epicsC4w
    (show SyncEvent.taskCreated ['T', '1'] ['K', 'T'] ['S', '1'] ['K', 'S'] ∈
      phase3Events outcomeC4w (storyKeysOf outcomeC4w epicsC4w) epicsC4w
      from by decide)

end PMNexus
